import Mathlib

/-!
# Page enhancer (`frontend/static/js/script.js`)

A shallow embedding of the script and of the part of the DOM it touches.

The page is a store of elements addressed by identifiers (`0 .. count-1`, in
creation order).  Every element carries the attributes the script reads or
writes, a reference to its parent node and the list of its children.  The
script appears as three functions over that store:

* `onDOMContentLoaded` - the callback registered on line 2;
* `dismissAlerts`      - the `setTimeout` callback of lines 4-10;
* `toggleClick`        - the click handler of lines 28-36, a closure over
  `field` and `toggleBtn`.

The browser and the rest of the page appear as `Event`s driving `step`: a click
bubbles from its target through the ancestors of the target, and an assignment
to `innerHTML` removes the children of the element.
-/

namespace PageEnhancer

/-! ## Data model -/

/-- Inline style properties written by the script (`element.style.*`). -/
structure Style where
  position : String
  right : String
  top : String
  transform : String
  zIndex : String
deriving DecidableEq

/-- Value of `node.parentNode`: `null`, the document itself, or an element. -/
inductive ParentRef where
  | detached
  | document
  | element (id : Nat)
deriving DecidableEq

/-- The closure created on line 28: it captures `field` and `toggleBtn`. -/
structure Listener where
  field : Nat
  toggleBtn : Nat
deriving DecidableEq

/-- A DOM element, reduced to what the script reads or writes.  `innerHTML` is
the markup assigned last through the `innerHTML` property (for a toggle button,
its icon); the elements appended to the element are its `children`. -/
structure Element where
  tagName : String
  type : String
  classList : List String
  innerHTML : String
  style : Style
  parentNode : ParentRef
  children : List Nat
  clickListeners : List Listener
deriving DecidableEq

/-- A pending one-shot timer whose callback is `dismissAlerts` (the only timer
callback of the script). -/
structure Timer where
  delay : Nat
  due : Nat
deriving DecidableEq

/-- Page state: the element store, the clock, the pending timers and the log of
the calls made to the alert-dismissal collaborator. -/
structure Page where
  nodes : Nat → Element
  count : Nat
  now : Nat
  timers : List Timer
  closed : List Nat

/-! ## DOM primitives -/

/-- Value of `element.parentElement`: the parent when it is an element. -/
def Element.parentElement (e : Element) : Option Nat :=
  match e.parentNode with
  | ParentRef.element p => some p
  | _ => none

/-- Overwrite one element of the store. -/
def Page.modify (s : Page) (i : Nat) (f : Element → Element) : Page :=
  { s with nodes := Function.update s.nodes i (f (s.nodes i)) }

/-- The style of a freshly created element: no inline property set. -/
def emptyStyle : Style :=
  { position := "", right := "", top := "", transform := "", zIndex := "" }

/-- Default of the `type` property of a new element. -/
def defaultType (tag : String) : String :=
  if tag = "button" then "submit" else if tag = "input" then "text" else ""

/-- A new element as `document.createElement` returns it: detached, empty. -/
def newElement (tag : String) : Element :=
  { tagName := tag, type := defaultType tag, classList := [], innerHTML := "",
    style := emptyStyle, parentNode := ParentRef.detached, children := [],
    clickListeners := [] }

/-- The call `document.createElement(tag)`: allocates the next identifier. -/
def createElement (s : Page) (tag : String) : Page × Nat :=
  ({ s with nodes := Function.update s.nodes s.count (newElement tag),
            count := s.count + 1 }, s.count)

/-- The call `node.remove()`: unlink the node from its parent. -/
def remove (s : Page) (i : Nat) : Page :=
  match (s.nodes i).parentNode with
  | ParentRef.detached => s
  | ParentRef.document => s.modify i (fun e => { e with parentNode := ParentRef.detached })
  | ParentRef.element p =>
    (s.modify p (fun e => { e with children := e.children.filter (fun c => c ≠ i) })).modify i
      (fun e => { e with parentNode := ParentRef.detached })

/-- The call `parent.appendChild(child)`: the child leaves its former parent and
becomes the last child of `parent`. -/
def appendChild (s : Page) (parent child : Nat) : Page :=
  let s := remove s child
  let s := s.modify parent (fun e => { e with children := e.children ++ [child] })
  s.modify child (fun e => { e with parentNode := ParentRef.element parent })

/-- Follow `parentNode` upwards for at most `fuel` links; `true` when the
document is reached. -/
def climb (nodes : Nat → Element) : Nat → Nat → Bool
  | 0, _ => false
  | fuel + 1, i =>
    match (nodes i).parentNode with
    | ParentRef.detached => false
    | ParentRef.document => true
    | ParentRef.element p => climb nodes fuel p

/-- Value of `node.isConnected`: the node is in the document. -/
def isConnected (s : Page) (i : Nat) : Bool :=
  climb s.nodes s.count i

/-- The two selectors the script uses. -/
inductive Selector where
  | cls (name : String)
  | tagWithType (tag value : String)
deriving DecidableEq

/-- The selector `'.alert'`. -/
def alertSelector : Selector := Selector.cls "alert"

/-- The selector `'input[type="password"]'`. -/
def passwordSelector : Selector := Selector.tagWithType "input" "password"

/-- Whether an element matches a selector. -/
def Selector.selects : Selector → Element → Bool
  | Selector.cls name, e => decide (name ∈ e.classList)
  | Selector.tagWithType tag value, e => decide (e.tagName = tag) && decide (e.type = value)

/-- The call `document.querySelectorAll(sel)`: a static list of the connected
elements matching `sel`, listed in the order of their identifiers. -/
def querySelectorAll (s : Page) (sel : Selector) : List Nat :=
  (List.range s.count).filter (fun i => sel.selects (s.nodes i) && isConnected s i)

/-! ## The script -/

/-- The markup `'<i class="bi bi-eye"></i>'`. -/
def eyeIcon : String := "<i class=\"bi bi-eye\"></i>"

/-- The markup `'<i class="bi bi-eye-slash"></i>'`. -/
def eyeSlashIcon : String := "<i class=\"bi bi-eye-slash\"></i>"

/-- Modelled from the spec: the alert-dismissal collaborator
(`new bootstrap.Alert(alert).close()`), which is not part of the repository.
Closing removes the element from the document; every call is logged. -/
def alertClose (s : Page) (alert : Nat) : Page :=
  remove { s with closed := s.closed ++ [alert] } alert

/-- The `setTimeout` callback (lines 4-10). -/
def dismissAlerts (s : Page) : Page :=
  let alerts := querySelectorAll s alertSelector
  alerts.foldl alertClose s

/-- The call `setTimeout(dismissAlerts, delay)`. -/
def setTimeout (s : Page) (delay : Nat) : Page :=
  { s with timers := s.timers ++ [{ delay := delay, due := s.now + delay }] }

/-- The assignment `element.innerHTML = markup`: every child of the element is
removed from it, and the markup becomes its whole content. -/
def setInnerHTML (s : Page) (i : Nat) (markup : String) : Page :=
  let s := (s.nodes i).children.foldl remove s
  s.modify i (fun e => { e with innerHTML := markup, children := [] })

/-- The click handler (lines 28-36) with its captured variables. -/
def toggleClick (l : Listener) (s : Page) : Page :=
  if (s.nodes l.field).type = "password" then
    let s := s.modify l.field (fun e => { e with type := "text" })
    setInnerHTML s l.toggleBtn eyeSlashIcon
  else
    let s := s.modify l.field (fun e => { e with type := "password" })
    setInnerHTML s l.toggleBtn eyeIcon

/-- Lines 17-25 and 28: configure the new button and register its handler. -/
def configureToggle (field toggleBtn : Nat) (e : Element) : Element :=
  { e with
    type := "button"
    classList := ["btn", "btn-outline-secondary"]
    innerHTML := eyeIcon
    style := { position := "absolute", right := "10px", top := "50%",
               transform := "translateY(-50%)", zIndex := "10" }
    clickListeners := e.clickListeners ++ [{ field := field, toggleBtn := toggleBtn }] }

/-- Body of the `passwordFields.forEach` callback (lines 16-41).  `none` is the
`TypeError` raised when `field.parentElement` is `null`. -/
def enhance (s : Page) (field : Nat) : Option Page :=
  let (s, toggleBtn) := createElement s "button"
  let s := s.modify toggleBtn (configureToggle field toggleBtn)
  match (s.nodes field).parentElement with
  | none => none
  | some parentDiv =>
    let s := s.modify parentDiv
      (fun e => { e with style := { e.style with position := "relative" } })
    some (appendChild s parentDiv toggleBtn)

/-- The `DOMContentLoaded` callback (lines 2-43). -/
def onDOMContentLoaded (s : Page) : Option Page :=
  let s := setTimeout s 5000
  let passwordFields := querySelectorAll s passwordSelector
  passwordFields.foldlM enhance s

/-! ## The environment -/

/-- What can happen to the page once the callback has run: the user clicks on
`target`, time passes, the runtime serves the timer queue, or other page code
inserts a new element under `parent`. -/
inductive Event where
  | click (target : Nat)
  | advance (dt : Nat)
  | timeout
  | insert (tag type : String) (classList : List String) (parent : Nat)
deriving DecidableEq

/-- The propagation path of an event: its target and the ancestors of the
target, innermost first (at most `fuel` elements). -/
def eventPath (nodes : Nat → Element) : Nat → Nat → List Nat
  | 0, _ => []
  | fuel + 1, i =>
    i :: match (nodes i).parentNode with
      | ParentRef.element p => eventPath nodes fuel p
      | _ => []

/-- The click listeners of element `i` run, in the order of their registration;
an identifier that is not an element of the page has none. -/
def dispatch (s : Page) (i : Nat) : Page :=
  if i < s.count then (s.nodes i).clickListeners.foldl (fun st l => toggleClick l st) s
  else s

/-- A click on `target`: the event bubbles, so the listeners of the target run
and then those of each of its ancestors, along the path fixed when the click
occurs. -/
def click (s : Page) (target : Nat) : Page :=
  if target < s.count then (eventPath s.nodes s.count target).foldl dispatch s else s

/-- The runtime runs the oldest pending timer, once it is due, and drops it. -/
def fireTimer (s : Page) : Page :=
  match s.timers with
  | [] => s
  | t :: rest => if t.due ≤ s.now then dismissAlerts { s with timers := rest } else s

/-- Other page code creates an element and appends it to an existing one. -/
def insertElement (s : Page) (tag type : String) (classList : List String)
    (parent : Nat) : Page :=
  if parent < s.count then
    let (s, i) := createElement s tag
    let s := s.modify i (fun e => { e with type := type, classList := classList })
    appendChild s parent i
  else s

/-- One transition of the page. -/
def step (s : Page) : Event → Page
  | Event.click target => click s target
  | Event.advance dt => { s with now := s.now + dt }
  | Event.timeout => fireTimer s
  | Event.insert tag type classList parent => insertElement s tag type classList parent

/-- A sequence of transitions. -/
def run (s : Page) (evs : List Event) : Page :=
  evs.foldl step s

/-! ## Auxiliary definitions used in the statements -/

/-- The toggle button as the `forEach` callback leaves it. -/
def toggleElement (field toggleBtn parentDiv : Nat) : Element :=
  { configureToggle field toggleBtn (newElement "button") with
    parentNode := ParentRef.element parentDiv }

/-- The parent of a field once one button has been appended to it. -/
def hostElement (e : Element) (toggleBtn : Nat) : Element :=
  { e with
    style := { e.style with position := "relative" }
    children := e.children ++ [toggleBtn] }

/-- The buttons numbered from `b` on, one per field of the list, restricted to
the fields whose parent element is `p`. -/
def buttonsFor (s : Page) (p : Nat) : List Nat → Nat → List Nat
  | [], _ => []
  | f :: fs, b =>
    if (s.nodes f).parentElement = some p then b :: buttonsFor s p fs (b + 1)
    else buttonsFor s p fs (b + 1)

/-- The field is an element of the page whose parent is an element of the page. -/
def HasHost (s : Page) (f : Nat) : Prop :=
  f < s.count ∧ ∃ p, p < s.count ∧ (s.nodes f).parentElement = some p

/-- The script has not run on the page yet: none of its timers is pending and
none of its click handlers is registered. -/
def Fresh (s : Page) : Prop :=
  s.timers = [] ∧ ∀ i, i < s.count → (s.nodes i).clickListeners = []

/-- Every password field found at load time has a parent element in the page. -/
def Hosted (s : Page) : Prop :=
  ∀ f ∈ querySelectorAll s passwordSelector, HasHost s f

/-- The handlers found on element `i` when the buttons of the fields `fs` are
numbered from `c0` on. -/
def listenersAt (c0 : Nat) (fs : List Nat) (i : Nat) : List Listener :=
  if c0 ≤ i then (fs[i - c0]?).toList.map (fun f => { field := f, toggleBtn := i }) else []

/-- Masked mode: the field hides its content and the button shows the eye. -/
def Masked (t : Page) (field toggleBtn : Nat) : Prop :=
  (t.nodes field).type = "password" ∧ (t.nodes toggleBtn).innerHTML = eyeIcon

/-- Revealed mode: the field shows its content and the button the slashed eye. -/
def Revealed (t : Page) (field toggleBtn : Nat) : Prop :=
  (t.nodes field).type = "text" ∧ (t.nodes toggleBtn).innerHTML = eyeSlashIcon

/-- The attributes of an element, as opposed to its place in the tree. -/
def Element.attrs (e : Element) :
    String × String × List String × String × Style × List Listener :=
  (e.tagName, e.type, e.classList, e.innerHTML, e.style, e.clickListeners)

/-- The event is a click that reaches element `b`: its target is `b` or an
element inside `b`. -/
def reaches (t : Page) (b : Nat) : Event → Bool
  | Event.click target =>
    decide (target < t.count) && decide (b ∈ eventPath t.nodes t.count target)
  | _ => false

/-- Number of clicks reaching element `b` when the events `evs` happen from the
state `t` on. -/
def clicksOn (b : Nat) : Page → List Event → Nat
  | _, [] => 0
  | t, e :: evs => (if reaches t b e then 1 else 0) + clicksOn b (step t e) evs

/-- The handlers and the buttons of load time, in a later state `t`: the fields
`fs` were enhanced with the buttons `c0`, `c0 + 1`, ..., button `c0 + k` being
appended to element `par k`.  No other handler exists, each button still hangs
under its parent, and what a button contains was inserted after load time. -/
def Registry (c0 : Nat) (fs : List Nat) (par : Nat → Nat) (t : Page) : Prop :=
  c0 + fs.length ≤ t.count ∧
  (∀ i, i < t.count → (t.nodes i).clickListeners = listenersAt c0 fs i) ∧
  (∀ k, k < fs.length →
    (t.nodes (c0 + k)).parentNode = ParentRef.element (par k) ∧
    c0 + k ∈ (t.nodes (par k)).children ∧
    "alert" ∉ (t.nodes (c0 + k)).classList ∧
    ∀ c ∈ (t.nodes (c0 + k)).children,
      c0 + fs.length ≤ c ∧ c < t.count ∧
      (t.nodes c).parentNode = ParentRef.element (c0 + k))

/-- Each field is masked or revealed according to the parity of the number
`cnt b` of clicks that reached its button `b`. -/
def Modes (c0 : Nat) (fs : List Nat) (cnt : Nat → Nat) (t : Page) : Prop :=
  ∀ k (hk : k < fs.length),
    if cnt (c0 + k) % 2 = 0 then Masked t fs[k] (c0 + k)
    else Revealed t fs[k] (c0 + k)

/-- The parent element, at load time, of the field number `k` of the list. -/
def parentsAt (s : Page) (fs : List Nat) (k : Nat) : Nat :=
  match fs[k]? with
  | some f => ((s.nodes f).parentElement).getD 0
  | none => 0

/-- From `u` to `u'` no element is created, the clock, the timers and the log
are untouched, and an element keeps its tag, classes, style and listeners and
either keeps its parent or loses it. -/
def Shrinks (u u' : Page) : Prop :=
  u'.count = u.count ∧ u'.now = u.now ∧ u'.timers = u.timers ∧ u'.closed = u.closed ∧
  ∀ i, (u'.nodes i).tagName = (u.nodes i).tagName ∧
    (u'.nodes i).classList = (u.nodes i).classList ∧
    (u'.nodes i).style = (u.nodes i).style ∧
    (u'.nodes i).clickListeners = (u.nodes i).clickListeners ∧
    ((u'.nodes i).parentNode = (u.nodes i).parentNode ∨
      (u'.nodes i).parentNode = ParentRef.detached)

/-- Element `b` carries a click handler of the script that closes over the
field `f`: `b` is the toggle button of `f`. -/
def IsToggleOf (t : Page) (b f : Nat) : Prop :=
  b < t.count ∧ { field := f, toggleBtn := b } ∈ (t.nodes b).clickListeners

/-- The elements of the page that carry a click handler of the script. -/
def toggleButtons (t : Page) : List Nat :=
  (List.range t.count).filter (fun i => !(t.nodes i).clickListeners.isEmpty)

/-- Identifiers follow creation order: the parent of an element of the page is
an element created before it. -/
def WellFormed (s : Page) : Prop :=
  ∀ i, i < s.count → ∀ p, (s.nodes i).parentNode = ParentRef.element p → p < i

/-! ## Example pages -/

/-- A `div` holding one `input[type=password]` and one `.alert`:
element 0 is `html`, 1 the `div`, 2 the input, 3 the alert. -/
def demoNodes : Nat → Element
  | 0 => { newElement "html" with parentNode := ParentRef.document, children := [1] }
  | 1 =>
    { newElement "div" with
      parentNode := ParentRef.element 0
      children := [2, 3]
      style := { emptyStyle with position := "absolute" } }
  | 2 => { newElement "input" with type := "password", parentNode := ParentRef.element 1 }
  | 3 =>
    { newElement "div" with
      classList := ["alert", "alert-info"]
      parentNode := ParentRef.element 1 }
  | _ => newElement ""

/-- The example page at load time. -/
def demoPage : Page :=
  { nodes := demoNodes, count := 4, now := 0, timers := [], closed := [] }

/-- The example page once the `DOMContentLoaded` callback has run. -/
def demoLoaded : Page :=
  match onDOMContentLoaded demoPage with
  | some t => t
  | none => demoPage

/-- A `form` holding two password inputs: element 0 is `html`, 1 the `form`,
2 and 3 the inputs. -/
def duoNodes : Nat → Element
  | 0 => { newElement "html" with parentNode := ParentRef.document, children := [1] }
  | 1 => { newElement "form" with parentNode := ParentRef.element 0, children := [2, 3] }
  | 2 => { newElement "input" with type := "password", parentNode := ParentRef.element 1 }
  | 3 => { newElement "input" with type := "password", parentNode := ParentRef.element 1 }
  | _ => newElement ""

/-- The two-field page at load time. -/
def duoPage : Page :=
  { nodes := duoNodes, count := 4, now := 0, timers := [], closed := [] }

/-- The two-field page once the `DOMContentLoaded` callback has run. -/
def duoLoaded : Page :=
  match onDOMContentLoaded duoPage with
  | some t => t
  | none => duoPage

/-! ## Store lemmas, the `forEach` loop, queries and removal -/

@[simp] theorem modify_nodes (s : Page) (i j : Nat) (f : Element → Element) :
    (s.modify i f).nodes j = if j = i then f (s.nodes i) else s.nodes j := by
  unfold Page.modify
  by_cases h : j = i
  · subst h; simp
  · simp [Function.update, h]

@[simp] theorem modify_count (s : Page) (i : Nat) (f : Element → Element) :
    (s.modify i f).count = s.count := rfl

@[simp] theorem modify_now (s : Page) (i : Nat) (f : Element → Element) :
    (s.modify i f).now = s.now := rfl

@[simp] theorem modify_timers (s : Page) (i : Nat) (f : Element → Element) :
    (s.modify i f).timers = s.timers := rfl

@[simp] theorem modify_closed (s : Page) (i : Nat) (f : Element → Element) :
    (s.modify i f).closed = s.closed := rfl

theorem remove_detached (s : Page) (i : Nat)
    (h : (s.nodes i).parentNode = ParentRef.detached) : remove s i = s := by
  unfold remove; rw [h]

theorem enhance_some (s : Page) (f p : Nat) (hf : f < s.count) (hp' : p < s.count)
    (hp : (s.nodes f).parentElement = some p) :
    ∃ s', enhance s f = some s' ∧ s'.count = s.count + 1 ∧ s'.now = s.now ∧
      s'.timers = s.timers ∧ s'.closed = s.closed ∧
      ∀ i, s'.nodes i = if i = s.count then toggleElement f s.count p
        else if i = p then hostElement (s.nodes p) s.count else s.nodes i := by
  have hne : f ≠ s.count := Nat.ne_of_lt hf
  have hne' : p ≠ s.count := Nat.ne_of_lt hp'
  have hne'' : s.count ≠ p := Ne.symm hne'
  unfold enhance createElement
  simp only [modify_nodes, Function.update, hne, hp, if_false, dite_false, eq_rec_constant,
    dite_eq_ite, if_true]
  refine ⟨_, rfl, ?_⟩
  unfold appendChild
  rw [remove_detached]
  · simp [hne', hne'']
    intro i
    split_ifs <;> simp_all [toggleElement, hostElement]
  · simp [hne'', configureToggle, newElement]

theorem enhance_none (s : Page) (f : Nat) (hf : f < s.count)
    (hp : (s.nodes f).parentElement = none) : enhance s f = none := by
  have hne : f ≠ s.count := Nat.ne_of_lt hf
  unfold enhance createElement
  simp [Function.update, hne, hp]

theorem buttonsFor_congr (s t : Page) (p : Nat) (fs : List Nat) (b : Nat)
    (h : ∀ f ∈ fs, (t.nodes f).parentElement = (s.nodes f).parentElement) :
    buttonsFor t p fs b = buttonsFor s p fs b := by
  induction fs generalizing b with
  | nil => rfl
  | cons f fs ih =>
    have hf := h f (List.mem_cons_self _ _)
    have ih' := ih (b + 1) (fun g hg => h g (List.mem_cons_of_mem _ hg))
    simp [buttonsFor, hf, ih']

theorem buttonsFor_eq_nil (s : Page) (p : Nat) (fs : List Nat) (b : Nat)
    (h : ∀ f ∈ fs, (s.nodes f).parentElement ≠ some p) : buttonsFor s p fs b = [] := by
  induction fs generalizing b with
  | nil => rfl
  | cons f fs ih =>
    have hf := h f (List.mem_cons_self _ _)
    have ih' := ih (b + 1) (fun g hg => h g (List.mem_cons_of_mem _ hg))
    simp [buttonsFor, hf, ih']

theorem buttonsFor_ne_nil (s : Page) (p : Nat) (fs : List Nat) (b : Nat) :
    buttonsFor s p fs b ≠ [] ↔ ∃ f ∈ fs, (s.nodes f).parentElement = some p := by
  induction fs generalizing b with
  | nil => simp [buttonsFor]
  | cons f fs ih =>
    by_cases hf : (s.nodes f).parentElement = some p
    · simp [buttonsFor, hf]
    · simp [buttonsFor, hf, ih (b + 1)]

theorem hostElement_parentElement (e : Element) (b : Nat) :
    (hostElement e b).parentElement = e.parentElement := rfl

theorem forEach_spec (fs : List Nat) : ∀ (s : Page), (∀ f ∈ fs, HasHost s f) →
    ∃ s', fs.foldlM enhance s = some s' ∧ s'.count = s.count + fs.length ∧ s'.now = s.now ∧
      s'.timers = s.timers ∧ s'.closed = s.closed ∧
      (∀ i, i < s.count → s'.nodes i =
        { s.nodes i with
          style := if buttonsFor s i fs s.count = [] then (s.nodes i).style
                   else { (s.nodes i).style with position := "relative" }
          children := (s.nodes i).children ++ buttonsFor s i fs s.count }) ∧
      (∀ k (hk : k < fs.length), ∃ p, (s.nodes fs[k]).parentElement = some p ∧
        s'.nodes (s.count + k) = toggleElement fs[k] (s.count + k) p) := by
  induction fs with
  | nil =>
    intro s _
    refine ⟨s, rfl, rfl, rfl, rfl, rfl, ?_, ?_⟩
    · intro i _
      simp [buttonsFor]
    · intro k hk
      simp at hk
  | cons f rest ih =>
    intro s H
    obtain ⟨hf, p, hp', hp⟩ := H f (List.mem_cons_self _ _)
    obtain ⟨s1, he, hc1, hn1, ht1, hcl1, hnodes1⟩ := enhance_some s f p hf hp' hp
    have hpar : ∀ g, g < s.count → (s1.nodes g).parentElement = (s.nodes g).parentElement := by
      intro g hg
      rw [hnodes1 g, if_neg (Nat.ne_of_lt hg)]
      split_ifs with h
      · rw [hostElement_parentElement, h]
      · rfl
    have H1 : ∀ g ∈ rest, HasHost s1 g := by
      intro g hg
      obtain ⟨hg1, q, hq, hq'⟩ := H g (List.mem_cons_of_mem _ hg)
      exact ⟨by omega, q, by omega, by rw [hpar g hg1]; exact hq'⟩
    have hbf : ∀ i b, buttonsFor s1 i rest b = buttonsFor s i rest b := by
      intro i b
      exact buttonsFor_congr s s1 i rest b
        (fun g hg => hpar g (H g (List.mem_cons_of_mem _ hg)).1)
    obtain ⟨s', hfold, hc, hn, ht, hcl, hlow, hbtn⟩ := ih s1 H1
    refine ⟨s', ?_, ?_, ?_, ?_, ?_, ?_, ?_⟩
    · simp [List.foldlM_cons, he, hfold]
    · simp [hc, hc1]; omega
    · rw [hn, hn1]
    · rw [ht, ht1]
    · rw [hcl, hcl1]
    · intro i hi
      rw [hlow i (by omega), hbf, hc1, hnodes1 i, if_neg (Nat.ne_of_lt hi)]
      by_cases hip : i = p
      · subst hip
        simp [buttonsFor, hp, hostElement]

      · have hne : (s.nodes f).parentElement ≠ some i := by
          rw [hp]; intro h; exact hip (Option.some.inj h).symm
        simp [buttonsFor, hne, hip]
    · intro k hk
      cases k with
      | zero =>
        refine ⟨p, hp, ?_⟩
        have hnil : buttonsFor s1 s.count rest s1.count = [] := by
          apply buttonsFor_eq_nil
          intro g hg
          obtain ⟨hg1, q, hq, hq'⟩ := H g (List.mem_cons_of_mem _ hg)
          rw [hpar g hg1, hq']
          intro h
          have := Option.some.inj h
          omega
        rw [Nat.add_zero, hlow s.count (by omega), hnil, hnodes1 s.count]
        simp
      | succ k =>
        have hk' : k < rest.length := by simpa using hk
        obtain ⟨q, hq, hq'⟩ := hbtn k hk'
        have hg1 := (H rest[k] (List.mem_cons_of_mem _ (List.getElem_mem _))).1
        refine ⟨q, ?_, ?_⟩
        · simp only [List.getElem_cons_succ]
          rw [← hpar _ hg1]; exact hq
        · simp only [List.getElem_cons_succ]
          have : s.count + (k + 1) = s1.count + k := by omega
          rw [this]; exact hq'

theorem mem_query (s : Page) (sel : Selector) (i : Nat) :
    i ∈ querySelectorAll s sel ↔
      i < s.count ∧ sel.selects (s.nodes i) = true ∧ isConnected s i = true := by
  simp [querySelectorAll, List.mem_filter]

theorem query_nodup (s : Page) (sel : Selector) : (querySelectorAll s sel).Nodup :=
  List.Nodup.filter _ (List.nodup_range _)

theorem selects_password (e : Element) :
    passwordSelector.selects e = true ↔ e.tagName = "input" ∧ e.type = "password" := by
  simp [passwordSelector, Selector.selects]

theorem selects_alert (e : Element) :
    alertSelector.selects e = true ↔ "alert" ∈ e.classList := by
  simp [alertSelector, Selector.selects]

theorem load_spec (s : Page) (H : Hosted s) :
    ∃ s1, onDOMContentLoaded s = some s1 ∧
      s1.count = s.count + (querySelectorAll s passwordSelector).length ∧
      s1.now = s.now ∧
      s1.timers = s.timers ++ [{ delay := 5000, due := s.now + 5000 }] ∧
      s1.closed = s.closed ∧
      (∀ i, i < s.count → s1.nodes i =
        { s.nodes i with
          style := if buttonsFor s i (querySelectorAll s passwordSelector) s.count = []
                   then (s.nodes i).style
                   else { (s.nodes i).style with position := "relative" }
          children := (s.nodes i).children ++
            buttonsFor s i (querySelectorAll s passwordSelector) s.count }) ∧
      (∀ k (hk : k < (querySelectorAll s passwordSelector).length),
        ∃ p, (s.nodes (querySelectorAll s passwordSelector)[k]).parentElement = some p ∧
          s1.nodes (s.count + k) =
            toggleElement (querySelectorAll s passwordSelector)[k] (s.count + k) p) := by
  obtain ⟨s1, hfold, hc, hn, ht, hcl, hlow, hbtn⟩ :=
    forEach_spec (querySelectorAll s passwordSelector) (setTimeout s 5000) H
  have hbf : ∀ i b, buttonsFor (setTimeout s 5000) i (querySelectorAll s passwordSelector) b =
      buttonsFor s i (querySelectorAll s passwordSelector) b :=
    fun i b => buttonsFor_congr s (setTimeout s 5000) i _ b (fun _ _ => rfl)
  refine ⟨s1, hfold, hc, hn, ht, hcl, ?_, hbtn⟩
  intro i hi
  rw [hlow i hi, hbf]
  rfl

theorem load_listeners (s s1 : Page) (hF : Fresh s) (H : Hosted s)
    (h1 : onDOMContentLoaded s = some s1) (i : Nat) (hi : i < s1.count) :
    (s1.nodes i).clickListeners =
      listenersAt s.count (querySelectorAll s passwordSelector) i := by
  obtain ⟨s1', h1', hc, -, -, -, hlow, hbtn⟩ := load_spec s H
  rw [h1] at h1'
  cases Option.some.inj h1'
  by_cases hlt : i < s.count
  · rw [hlow i hlt]
    simp [listenersAt, Nat.not_le.mpr hlt, hF.2 i hlt]
  · have hk : i - s.count < (querySelectorAll s passwordSelector).length := by omega
    obtain ⟨p, -, hp⟩ := hbtn (i - s.count) hk
    have e : s.count + (i - s.count) = i := by omega
    rw [e] at hp
    rw [hp]
    simp [listenersAt, Nat.le_of_not_lt hlt, List.getElem?_eq_getElem hk, toggleElement,
      configureToggle, newElement]

@[simp] theorem remove_count (s : Page) (a : Nat) : (remove s a).count = s.count := by
  unfold remove; split <;> rfl

@[simp] theorem remove_now (s : Page) (a : Nat) : (remove s a).now = s.now := by
  unfold remove; split <;> rfl

@[simp] theorem remove_timers (s : Page) (a : Nat) : (remove s a).timers = s.timers := by
  unfold remove; split <;> rfl

@[simp] theorem remove_closed (s : Page) (a : Nat) : (remove s a).closed = s.closed := by
  unfold remove; split <;> rfl

theorem remove_attrs (s : Page) (a i : Nat) :
    ((remove s a).nodes i).attrs = (s.nodes i).attrs := by
  unfold remove
  split
  · rfl
  · simp only [modify_nodes]; split_ifs with h
    · subst h; rfl
    · rfl
  · simp only [modify_nodes]; split_ifs <;> simp_all [Element.attrs]

theorem remove_parentNode (s : Page) (a i : Nat) :
    ((remove s a).nodes i).parentNode =
      if i = a then ParentRef.detached else (s.nodes i).parentNode := by
  unfold remove
  split
  · split_ifs with h
    · subst h; assumption
    · rfl
  · simp only [modify_nodes]; split_ifs <;> rfl
  · simp only [modify_nodes]; split_ifs <;> simp_all

@[simp] theorem alertClose_count (s : Page) (a : Nat) : (alertClose s a).count = s.count := by
  unfold alertClose; rw [remove_count]

@[simp] theorem alertClose_now (s : Page) (a : Nat) : (alertClose s a).now = s.now := by
  unfold alertClose; rw [remove_now]

@[simp] theorem alertClose_timers (s : Page) (a : Nat) :
    (alertClose s a).timers = s.timers := by
  unfold alertClose; rw [remove_timers]

@[simp] theorem alertClose_closed (s : Page) (a : Nat) :
    (alertClose s a).closed = s.closed ++ [a] := by
  unfold alertClose; rw [remove_closed]

theorem alertClose_attrs (s : Page) (a i : Nat) :
    ((alertClose s a).nodes i).attrs = (s.nodes i).attrs := by
  unfold alertClose; rw [remove_attrs]

theorem alertClose_parentNode (s : Page) (a i : Nat) :
    ((alertClose s a).nodes i).parentNode =
      if i = a then ParentRef.detached else (s.nodes i).parentNode := by
  unfold alertClose; rw [remove_parentNode]

theorem closeAll_spec (as : List Nat) : ∀ (s : Page),
    (as.foldl alertClose s).count = s.count ∧
    (as.foldl alertClose s).now = s.now ∧
    (as.foldl alertClose s).timers = s.timers ∧
    (as.foldl alertClose s).closed = s.closed ++ as ∧
    (∀ i, ((as.foldl alertClose s).nodes i).attrs = (s.nodes i).attrs) ∧
    (∀ i, ((as.foldl alertClose s).nodes i).parentNode =
      if i ∈ as then ParentRef.detached else (s.nodes i).parentNode) := by
  induction as with
  | nil => intro s; simp
  | cons a as ih =>
    intro s
    obtain ⟨h1, h2, h3, h4, h5, h6⟩ := ih (alertClose s a)
    simp only [List.foldl_cons]
    refine ⟨by rw [h1, alertClose_count], by rw [h2, alertClose_now],
      by rw [h3, alertClose_timers], by rw [h4, alertClose_closed]; simp, ?_, ?_⟩
    · intro i; rw [h5, alertClose_attrs]
    · intro i
      rw [h6, alertClose_parentNode]
      by_cases hi : i ∈ as
      · simp [hi]
      · by_cases hia : i = a
        · simp [hia]
        · simp [hi, hia]

theorem climb_mono (n n' : Nat → Element)
    (h : ∀ i, (n' i).parentNode = (n i).parentNode ∨ (n' i).parentNode = ParentRef.detached) :
    ∀ fuel i, climb n' fuel i = true → climb n fuel i = true := by
  intro fuel
  induction fuel with
  | zero => intro i hi; simp [climb] at hi
  | succ fuel ih =>
    intro i hi
    unfold climb at hi ⊢
    rcases h i with e | e
    · rw [e] at hi
      split at hi <;> simp_all
    · rw [e] at hi
      simp at hi

theorem climb_detached (n : Nat → Element) (fuel i : Nat)
    (h : (n i).parentNode = ParentRef.detached) : climb n fuel i = false := by
  cases fuel with
  | zero => rfl
  | succ fuel => unfold climb; rw [h]

theorem climb_congr (n n' : Nat → Element) (h : ∀ i, (n' i).parentNode = (n i).parentNode) :
    ∀ fuel i, climb n' fuel i = climb n fuel i := by
  intro fuel
  induction fuel with
  | zero => intro i; rfl
  | succ fuel ih =>
    intro i
    unfold climb
    rw [h i]
    split <;> simp_all

theorem climb_fuel_succ (n : Nat → Element) :
    ∀ fuel i, climb n fuel i = true → climb n (fuel + 1) i = true := by
  intro fuel
  induction fuel with
  | zero => intro i hi; simp [climb] at hi
  | succ fuel ih =>
    intro i hi
    unfold climb at hi
    unfold climb
    split at hi
    · simp at hi
    · simp_all
    · rename_i p hp
      exact ih p hi

theorem dismissAlerts_query_nil (s : Page) :
    querySelectorAll (dismissAlerts s) alertSelector = [] := by
  obtain ⟨h1, -, -, -, h5, h6⟩ := closeAll_spec (querySelectorAll s alertSelector) s
  unfold dismissAlerts
  simp only
  rw [List.eq_nil_iff_forall_not_mem]
  intro i hi
  rw [mem_query] at hi
  obtain ⟨hlt, hsel, hconn⟩ := hi
  rw [h1] at hlt
  have hattr := h5 i
  have hsel' : alertSelector.selects (s.nodes i) = true := by
    rw [selects_alert] at hsel ⊢
    have : ((List.foldl alertClose s (querySelectorAll s alertSelector)).nodes i).classList =
        (s.nodes i).classList := by
      have := congrArg (fun x => x.2.2.1) hattr
      exact this
    rw [← this]; exact hsel
  unfold isConnected at hconn
  rw [h1] at hconn
  by_cases hmem : i ∈ querySelectorAll s alertSelector
  · have := h6 i
    rw [if_pos hmem] at this
    rw [climb_detached _ _ _ this] at hconn
    simp at hconn
  · apply hmem
    rw [mem_query]
    refine ⟨hlt, hsel', ?_⟩
    apply climb_mono s.nodes _ _ _ _ hconn
    intro j
    rw [h6 j]
    split_ifs
    · right; rfl
    · left; rfl

theorem insertElement_spec (s : Page) (tag ty : String) (cls : List String) (parent : Nat)
    (hp : parent < s.count) :
    (insertElement s tag ty cls parent).count = s.count + 1 ∧
    (insertElement s tag ty cls parent).now = s.now ∧
    (insertElement s tag ty cls parent).timers = s.timers ∧
    (insertElement s tag ty cls parent).closed = s.closed ∧
    ∀ i, (insertElement s tag ty cls parent).nodes i =
      if i = s.count then
        { newElement tag with
          type := ty, classList := cls, parentNode := ParentRef.element parent }
      else if i = parent then
        { s.nodes parent with children := (s.nodes parent).children ++ [s.count] }
      else s.nodes i := by
  have hne : parent ≠ s.count := Nat.ne_of_lt hp
  have hne' : s.count ≠ parent := Ne.symm hne
  unfold insertElement createElement
  simp only [hp, if_true]
  unfold appendChild
  rw [remove_detached]
  · refine ⟨rfl, rfl, rfl, rfl, ?_⟩
    intro i
    simp only [modify_nodes, Function.update, hne, hne', if_false, dite_false, if_true,
      dite_true, eq_rec_constant, dite_eq_ite]
    split_ifs <;> simp_all [newElement]
  · simp [newElement]

theorem insertElement_skip (s : Page) (tag ty : String) (cls : List String) (parent : Nat)
    (hp : ¬ parent < s.count) : insertElement s tag ty cls parent = s := by
  unfold insertElement
  simp [hp]

theorem listenersAt_button (c0 : Nat) (fs : List Nat) (k : Nat) (hk : k < fs.length) :
    listenersAt c0 fs (c0 + k) = [{ field := fs[k], toggleBtn := c0 + k }] := by
  simp [listenersAt, List.getElem?_eq_getElem hk]

theorem listenersAt_other (c0 : Nat) (fs : List Nat) (i : Nat)
    (h : ∀ k, k < fs.length → i ≠ c0 + k) : listenersAt c0 fs i = [] := by
  unfold listenersAt
  split_ifs with hi
  · have : fs.length ≤ i - c0 := by
      by_contra hlt
      exact h (i - c0) (by omega) (by omega)
    simp [List.getElem?_eq_none this]
  · rfl

theorem attrs_type {e e' : Element} (h : e'.attrs = e.attrs) : e'.type = e.type :=
  congrArg (fun x => x.2.1) h

theorem attrs_innerHTML {e e' : Element} (h : e'.attrs = e.attrs) :
    e'.innerHTML = e.innerHTML :=
  congrArg (fun x => x.2.2.2.1) h

theorem attrs_clickListeners {e e' : Element} (h : e'.attrs = e.attrs) :
    e'.clickListeners = e.clickListeners :=
  congrArg (fun x => x.2.2.2.2.2) h

theorem attrs_classList {e e' : Element} (h : e'.attrs = e.attrs) :
    e'.classList = e.classList :=
  congrArg (fun x => x.2.2.1) h

theorem fireTimer_frame (t : Page) :
    (fireTimer t).count = t.count ∧ (fireTimer t).now = t.now ∧
      ∀ i, ((fireTimer t).nodes i).attrs = (t.nodes i).attrs := by
  unfold fireTimer
  split
  · exact ⟨rfl, rfl, fun _ => rfl⟩
  · rename_i tm rest _
    split_ifs
    · obtain ⟨h1, h2, -, -, h5, -⟩ :=
        closeAll_spec (querySelectorAll { t with timers := rest } alertSelector)
          { t with timers := rest }
      exact ⟨h1, h2, h5⟩
    · exact ⟨rfl, rfl, fun _ => rfl⟩

theorem fields_lt (s : Page) : ∀ f ∈ querySelectorAll s passwordSelector, f < s.count :=
  fun f hf => ((mem_query s _ f).mp hf).1

theorem mem_buttonsFor (s : Page) (p : Nat) (fs : List Nat) (c k : Nat) (hk : k < fs.length)
    (hp : (s.nodes fs[k]).parentElement = some p) : c + k ∈ buttonsFor s p fs c := by
  induction fs generalizing c k with
  | nil => simp at hk
  | cons f fs ih =>
    cases k with
    | zero =>
      simp only [List.getElem_cons_zero] at hp
      simp [buttonsFor, hp]
    | succ k =>
      simp only [List.getElem_cons_succ] at hp
      have hk' : k < fs.length := by simpa using hk
      have := ih (c + 1) k hk' hp
      have e : c + 1 + k = c + (k + 1) := by omega
      rw [e] at this
      unfold buttonsFor
      split_ifs
      · exact List.mem_cons_of_mem _ this
      · exact this

theorem buttonsFor_mem (s : Page) (p : Nat) (fs : List Nat) (c b : Nat)
    (hb : b ∈ buttonsFor s p fs c) :
    ∃ k, ∃ hk : k < fs.length, b = c + k ∧ (s.nodes fs[k]).parentElement = some p := by
  induction fs generalizing c with
  | nil => simp [buttonsFor] at hb
  | cons f fs ih =>
    unfold buttonsFor at hb
    split_ifs at hb with hf
    · rcases List.mem_cons.mp hb with rfl | hb'
      · exact ⟨0, by simp, rfl, by simpa using hf⟩
      · obtain ⟨k, hk, rfl, hp⟩ := ih (c + 1) hb'
        exact ⟨k + 1, by simpa using hk, by omega, by simpa using hp⟩
    · obtain ⟨k, hk, rfl, hp⟩ := ih (c + 1) hb
      exact ⟨k + 1, by simpa using hk, by omega, by simpa using hp⟩

theorem query_eq_nil (s : Page) (sel : Selector)
    (h : ∀ i, i < s.count → sel.selects (s.nodes i) = true → isConnected s i = false) :
    querySelectorAll s sel = [] := by
  rw [List.eq_nil_iff_forall_not_mem]
  intro i hi
  rw [mem_query] at hi
  rw [h i hi.1 hi.2.1] at hi
  simp at hi

theorem appendChild_log (s : Page) (p c : Nat) :
    (appendChild s p c).timers = s.timers ∧ (appendChild s p c).closed = s.closed ∧
      (appendChild s p c).now = s.now := by
  unfold appendChild
  simp

theorem enhance_log (s s' : Page) (f : Nat) (h : enhance s f = some s') :
    s'.timers = s.timers ∧ s'.closed = s.closed ∧ s'.now = s.now := by
  unfold enhance createElement at h
  simp only at h
  split at h
  · cases h
  · cases Option.some.inj h
    obtain ⟨h1, h2, h3⟩ := appendChild_log
      (({ s with nodes := Function.update s.nodes s.count (newElement "button"),
                 count := s.count + 1 } : Page).modify s.count
          (configureToggle f s.count) |>.modify _
            (fun e => { e with style := { e.style with position := "relative" } })) _ s.count
    exact ⟨h1, h2, h3⟩

theorem forEach_log (fs : List Nat) : ∀ (s s' : Page), fs.foldlM enhance s = some s' →
    s'.timers = s.timers ∧ s'.closed = s.closed ∧ s'.now = s.now := by
  induction fs with
  | nil =>
    intro s s' h
    cases Option.some.inj h
    exact ⟨rfl, rfl, rfl⟩
  | cons f fs ih =>
    intro s s' h
    rw [List.foldlM_cons] at h
    cases he : enhance s f with
    | none => rw [he] at h; cases h
    | some s1 =>
      rw [he] at h
      obtain ⟨a1, a2, a3⟩ := enhance_log s s1 f he
      obtain ⟨b1, b2, b3⟩ := ih s1 s' h
      exact ⟨by rw [b1, a1], by rw [b2, a2], by rw [b3, a3]⟩

theorem load_log (s s1 : Page) (h1 : onDOMContentLoaded s = some s1) :
    s1.timers = s.timers ++ [{ delay := 5000, due := s.now + 5000 }] ∧
      s1.closed = s.closed ∧ s1.now = s.now :=
  forEach_log _ (setTimeout s 5000) s1 h1

theorem insertElement_log (t : Page) (tag ty : String) (cls : List String) (parent : Nat) :
    (insertElement t tag ty cls parent).timers = t.timers ∧
      (insertElement t tag ty cls parent).closed = t.closed ∧
      (insertElement t tag ty cls parent).now = t.now := by
  by_cases hp : parent < t.count
  · obtain ⟨-, a, b, c, -⟩ := insertElement_spec t tag ty cls parent hp
    exact ⟨b, c, a⟩
  · rw [insertElement_skip t tag ty cls parent hp]
    exact ⟨rfl, rfl, rfl⟩

theorem run_cons (t : Page) (e : Event) (evs : List Event) :
    run t (e :: evs) = run (step t e) evs := rfl

theorem fireTimer_idle (t : Page) (h : t.timers = []) : fireTimer t = t := by
  unfold fireTimer
  rw [h]

theorem fireTimer_due (t : Page) (tm : Timer) (h : t.timers = [tm]) (hd : tm.due ≤ t.now) :
    (fireTimer t).timers = [] ∧
    (fireTimer t).closed = t.closed ++ querySelectorAll t alertSelector ∧
    querySelectorAll (fireTimer t) alertSelector = [] := by
  have e : fireTimer t = dismissAlerts { t with timers := [] } := by
    unfold fireTimer
    rw [h]
    simp only [hd, if_true]
  rw [e]
  obtain ⟨-, -, h3, h4, -, -⟩ :=
    closeAll_spec (querySelectorAll { t with timers := [] } alertSelector)
      { t with timers := [] }
  exact ⟨h3, h4, dismissAlerts_query_nil _⟩

theorem fireTimer_early (t : Page) (tm : Timer) (h : t.timers = [tm]) (hd : t.now < tm.due) :
    fireTimer t = t := by
  unfold fireTimer
  rw [h]
  simp only [Nat.not_le.mpr hd, if_false]

theorem climb_fuel_mono (n : Nat → Element) (i fuel fuel' : Nat) (h : fuel ≤ fuel')
    (hc : climb n fuel i = true) : climb n fuel' i = true := by
  induction h with
  | refl => exact hc
  | step _ ih => exact climb_fuel_succ n _ i ih

theorem climb_stable (n : Nat → Element) (c : Nat)
    (hW : ∀ i, i < c → ∀ p, (n i).parentNode = ParentRef.element p → p < i) :
    ∀ i, i < c → ∀ fuel, i < fuel → climb n fuel i = climb n (i + 1) i := by
  intro i
  induction i using Nat.strong_induction_on with
  | _ i ih =>
    intro hi fuel hf
    obtain ⟨fuel', rfl⟩ : ∃ f', fuel = f' + 1 := ⟨fuel - 1, by omega⟩
    unfold climb
    cases hpar : (n i).parentNode with
    | detached => rfl
    | document => rfl
    | element p =>
      have hp := hW i hi p hpar
      simp only
      rw [ih p hp (by omega) fuel' (by omega), ih p hp (by omega) i hp]

theorem climb_agree (n n' : Nat → Element) (c : Nat)
    (hW : ∀ i, i < c → ∀ p, (n i).parentNode = ParentRef.element p → p < i)
    (h : ∀ i, i < c → (n' i).parentNode = (n i).parentNode) :
    ∀ fuel i, i < c → climb n' fuel i = climb n fuel i := by
  intro fuel
  induction fuel with
  | zero => intro i _; rfl
  | succ fuel ih =>
    intro i hi
    unfold climb
    rw [h i hi]
    cases hpar : (n i).parentNode with
    | detached => rfl
    | document => rfl
    | element p =>
      simp only
      exact ih p (by have := hW i hi p hpar; omega)

theorem isConnected_exact (t : Page) (hW : WellFormed t) (i : Nat) (hi : i < t.count)
    (fuel : Nat) (hf : i < fuel) : climb t.nodes fuel i = isConnected t i := by
  unfold isConnected
  rw [climb_stable t.nodes t.count hW i hi fuel hf, climb_stable t.nodes t.count hW i hi _ hi]

theorem not_connected_any_fuel (t : Page) (hW : WellFormed t) (i : Nat) (hi : i < t.count)
    (h : isConnected t i = false) (fuel : Nat) : climb t.nodes fuel i = false := by
  by_cases hf : i < fuel
  · rw [isConnected_exact t hW i hi fuel hf]; exact h
  · by_contra hc
    have hc' : climb t.nodes fuel i = true := by simpa using hc
    have := climb_fuel_mono t.nodes i fuel t.count (by omega) hc'
    unfold isConnected at h
    rw [this] at h
    cases h

theorem fireTimer_parentNode (t : Page) (i : Nat) :
    ((fireTimer t).nodes i).parentNode = (t.nodes i).parentNode ∨
      ((fireTimer t).nodes i).parentNode = ParentRef.detached := by
  unfold fireTimer
  split
  · exact Or.inl rfl
  · rename_i tm rest _
    split_ifs
    · obtain ⟨-, -, -, -, -, h6⟩ :=
        closeAll_spec (querySelectorAll { t with timers := rest } alertSelector)
          { t with timers := rest }
      have := h6 i
      unfold dismissAlerts
      simp only
      rw [this]
      split_ifs
      · exact Or.inr rfl
      · exact Or.inl rfl
    · exact Or.inl rfl

theorem remove_children (s : Page) (a i : Nat) :
    ((remove s a).nodes i).children =
      if (s.nodes a).parentNode = ParentRef.element i then
        (s.nodes i).children.filter (fun c => c ≠ a)
      else (s.nodes i).children := by
  unfold remove
  cases hpar : (s.nodes a).parentNode with
  | detached => simp
  | document =>
    simp only [modify_nodes]
    have hne : ParentRef.document ≠ ParentRef.element i := by intro h; cases h
    rw [if_neg hne]
    by_cases h : i = a
    · subst h; simp
    · simp [h]
  | element p =>
    simp only [modify_nodes]
    by_cases hip : p = i
    · subst hip
      by_cases hia : p = a
      · subst hia; simp
      · simp [hia, Ne.symm hia]
    · have hip' : i ≠ p := Ne.symm hip
      have hne : ParentRef.element p ≠ ParentRef.element i := by
        intro h; injection h with h; exact hip h
      rw [if_neg hne]
      by_cases hia : i = a
      · subst hia; simp [hip, hip']
      · simp [hia, hip']

theorem closeAll_keeps_child (as : List Nat) : ∀ (s : Page) (b p : Nat), b ∉ as →
    b ∈ (s.nodes p).children → b ∈ ((as.foldl alertClose s).nodes p).children := by
  induction as with
  | nil => intro s b p _ h; exact h
  | cons a as ih =>
    intro s b p hb h
    simp only [List.foldl_cons]
    apply ih
    · exact fun h' => hb (List.mem_cons_of_mem _ h')
    · have hba : b ≠ a := fun h' => hb (h' ▸ List.mem_cons_self _ _)
      unfold alertClose
      rw [remove_children]
      split_ifs
      · exact List.mem_filter.mpr ⟨h, by simpa using hba⟩
      · exact h

theorem run_append (s : Page) (evs : List Event) (e : Event) :
    run s (evs ++ [e]) = step (run s evs) e := by
  unfold run
  rw [List.foldl_append]
  rfl

theorem run_append_list (t : Page) (evs evs' : List Event) :
    run t (evs ++ evs') = run (run t evs) evs' := by
  unfold run
  rw [List.foldl_append]

/-! ## Removal of a list of elements -/

theorem removeAll_spec (as : List Nat) : ∀ (s : Page),
    (as.foldl remove s).count = s.count ∧
    (as.foldl remove s).now = s.now ∧
    (as.foldl remove s).timers = s.timers ∧
    (as.foldl remove s).closed = s.closed ∧
    (∀ i, ((as.foldl remove s).nodes i).attrs = (s.nodes i).attrs) ∧
    (∀ i, ((as.foldl remove s).nodes i).parentNode =
      if i ∈ as then ParentRef.detached else (s.nodes i).parentNode) := by
  induction as with
  | nil => intro s; simp
  | cons a as ih =>
    intro s
    obtain ⟨h1, h2, h3, h4, h5, h6⟩ := ih (remove s a)
    simp only [List.foldl_cons]
    refine ⟨by rw [h1, remove_count], by rw [h2, remove_now],
      by rw [h3, remove_timers], by rw [h4, remove_closed], ?_, ?_⟩
    · intro i; rw [h5, remove_attrs]
    · intro i
      rw [h6, remove_parentNode]
      by_cases hi : i ∈ as
      · simp [hi]
      · by_cases hia : i = a
        · simp [hia]
        · simp [hi, hia]

theorem removeAll_children_other (as : List Nat) (b : Nat) : ∀ (s : Page),
    (∀ c ∈ as, (s.nodes c).parentNode = ParentRef.element b ∨
      (s.nodes c).parentNode = ParentRef.detached) →
    ∀ i, i ≠ b → ((as.foldl remove s).nodes i).children = (s.nodes i).children := by
  induction as with
  | nil => intro s _ i _; rfl
  | cons a as ih =>
    intro s H i hib
    simp only [List.foldl_cons]
    have hstep : ((remove s a).nodes i).children = (s.nodes i).children := by
      rw [remove_children]
      have hne : (s.nodes a).parentNode ≠ ParentRef.element i := by
        rcases H a (List.mem_cons_self _ _) with h | h
        · rw [h]; intro h'; injection h' with h'; exact hib h'.symm
        · rw [h]; intro h'; cases h'
      rw [if_neg hne]
    rw [ih (remove s a) ?_ i hib, hstep]
    intro c hc
    rw [remove_parentNode]
    split_ifs
    · exact Or.inr rfl
    · exact H c (List.mem_cons_of_mem _ hc)

theorem removeAll_keeps_child (as : List Nat) : ∀ (s : Page) (b p : Nat), b ∉ as →
    b ∈ (s.nodes p).children → b ∈ ((as.foldl remove s).nodes p).children := by
  induction as with
  | nil => intro s b p _ h; exact h
  | cons a as ih =>
    intro s b p hb h
    simp only [List.foldl_cons]
    apply ih
    · exact fun h' => hb (List.mem_cons_of_mem _ h')
    · have hba : b ≠ a := fun h' => hb (h' ▸ List.mem_cons_self _ _)
      rw [remove_children]
      split_ifs
      · exact List.mem_filter.mpr ⟨h, by simpa using hba⟩
      · exact h

theorem removeAll_children_subset (as : List Nat) : ∀ (s : Page) (c p : Nat),
    c ∈ ((as.foldl remove s).nodes p).children → c ∈ (s.nodes p).children := by
  induction as with
  | nil => intro s c p h; exact h
  | cons a as ih =>
    intro s c p h
    simp only [List.foldl_cons] at h
    have := ih (remove s a) c p h
    rw [remove_children] at this
    split_ifs at this
    · exact (List.mem_filter.mp this).1
    · exact this

/-! ## Effect of the click handler -/

theorem toggleClick_eq (l : Listener) (s : Page) :
    toggleClick l s =
      setInnerHTML
        (s.modify l.field (fun e =>
          { e with type := if (s.nodes l.field).type = "password" then "text" else "password" }))
        l.toggleBtn
        (if (s.nodes l.field).type = "password" then eyeSlashIcon else eyeIcon) := by
  unfold toggleClick
  split_ifs <;> rfl

theorem setInnerHTML_frame (s : Page) (i : Nat) (m : String) :
    (setInnerHTML s i m).count = s.count ∧ (setInnerHTML s i m).now = s.now ∧
      (setInnerHTML s i m).timers = s.timers ∧ (setInnerHTML s i m).closed = s.closed := by
  obtain ⟨h1, h2, h3, h4, -, -⟩ := removeAll_spec (s.nodes i).children s
  unfold setInnerHTML
  exact ⟨h1, h2, h3, h4⟩

theorem setInnerHTML_attrs (s : Page) (i j : Nat) (m : String) :
    ((setInnerHTML s i m).nodes j).tagName = (s.nodes j).tagName ∧
    ((setInnerHTML s i m).nodes j).type = (s.nodes j).type ∧
    ((setInnerHTML s i m).nodes j).classList = (s.nodes j).classList ∧
    ((setInnerHTML s i m).nodes j).style = (s.nodes j).style ∧
    ((setInnerHTML s i m).nodes j).clickListeners = (s.nodes j).clickListeners ∧
    ((setInnerHTML s i m).nodes j).innerHTML = if j = i then m else (s.nodes j).innerHTML := by
  obtain ⟨-, -, -, -, h5, -⟩ := removeAll_spec (s.nodes i).children s
  unfold setInnerHTML
  simp only [modify_nodes]
  have h := h5 j
  have h' := h5 i
  unfold Element.attrs at h h'
  simp only [Prod.mk.injEq] at h h'
  by_cases hji : j = i
  · subst hji
    simp only [if_true]
    exact ⟨h.1, h.2.1, h.2.2.1, h.2.2.2.2.1, h.2.2.2.2.2, trivial⟩
  · simp only [hji, if_false]
    exact ⟨h.1, h.2.1, h.2.2.1, h.2.2.2.2.1, h.2.2.2.2.2, h.2.2.2.1⟩

theorem setInnerHTML_parentNode (s : Page) (i j : Nat) (m : String) :
    ((setInnerHTML s i m).nodes j).parentNode =
      if j ∈ (s.nodes i).children then ParentRef.detached else (s.nodes j).parentNode := by
  obtain ⟨-, -, -, -, -, h6⟩ := removeAll_spec (s.nodes i).children s
  unfold setInnerHTML
  simp only [modify_nodes]
  by_cases hji : j = i
  · subst hji
    simp only [if_true]
    exact h6 j
  · simp only [hji, if_false]
    exact h6 j

theorem setInnerHTML_children_self (s : Page) (i : Nat) (m : String) :
    ((setInnerHTML s i m).nodes i).children = [] := by
  unfold setInnerHTML
  simp

theorem setInnerHTML_children_other (s : Page) (i j : Nat) (m : String)
    (H : ∀ c ∈ (s.nodes i).children, (s.nodes c).parentNode = ParentRef.element i ∨
      (s.nodes c).parentNode = ParentRef.detached) (hji : j ≠ i) :
    ((setInnerHTML s i m).nodes j).children = (s.nodes j).children := by
  unfold setInnerHTML
  simp only [modify_nodes, hji, if_false]
  exact removeAll_children_other _ i s H j hji

theorem setInnerHTML_keeps_child (s : Page) (i c p : Nat) (m : String)
    (hc : c ∉ (s.nodes i).children) (hp : p ≠ i) (hmem : c ∈ (s.nodes p).children) :
    c ∈ ((setInnerHTML s i m).nodes p).children := by
  unfold setInnerHTML
  simp only [modify_nodes, hp, if_false]
  exact removeAll_keeps_child _ s c p hc hmem

theorem setInnerHTML_children_subset (s : Page) (i c p : Nat) (m : String)
    (h : c ∈ ((setInnerHTML s i m).nodes p).children) : c ∈ (s.nodes p).children := by
  unfold setInnerHTML at h
  simp only [modify_nodes] at h
  split_ifs at h
  · simp at h
  · exact removeAll_children_subset _ s c p h

theorem modify_type_children (s : Page) (f j : Nat) (ty : String) :
    ((s.modify f (fun e => { e with type := ty })).nodes j).children = (s.nodes j).children ∧
    ((s.modify f (fun e => { e with type := ty })).nodes j).parentNode =
      (s.nodes j).parentNode := by
  simp only [modify_nodes]
  split_ifs with h
  · subst h; exact ⟨rfl, rfl⟩
  · exact ⟨rfl, rfl⟩

theorem toggleClick_frame (l : Listener) (s : Page) :
    (toggleClick l s).count = s.count ∧ (toggleClick l s).now = s.now ∧
      (toggleClick l s).timers = s.timers ∧ (toggleClick l s).closed = s.closed := by
  rw [toggleClick_eq]
  exact setInnerHTML_frame _ _ _

theorem toggleClick_attrs (l : Listener) (s : Page) (i : Nat) :
    ((toggleClick l s).nodes i).tagName = (s.nodes i).tagName ∧
    ((toggleClick l s).nodes i).classList = (s.nodes i).classList ∧
    ((toggleClick l s).nodes i).style = (s.nodes i).style ∧
    ((toggleClick l s).nodes i).clickListeners = (s.nodes i).clickListeners ∧
    ((toggleClick l s).nodes i).type =
      (if i = l.field then
        (if (s.nodes l.field).type = "password" then "text" else "password")
      else (s.nodes i).type) ∧
    ((toggleClick l s).nodes i).innerHTML =
      (if i = l.toggleBtn then
        (if (s.nodes l.field).type = "password" then eyeSlashIcon else eyeIcon)
      else (s.nodes i).innerHTML) := by
  rw [toggleClick_eq]
  obtain ⟨h1, h2, h3, h4, h5, h6⟩ := setInnerHTML_attrs
    (s.modify l.field (fun e =>
      { e with type := if (s.nodes l.field).type = "password" then "text" else "password" }))
    l.toggleBtn i (if (s.nodes l.field).type = "password" then eyeSlashIcon else eyeIcon)
  rw [h1, h2, h3, h4, h5, h6]
  simp only [modify_nodes]
  by_cases hf : i = l.field
  · subst hf
    simp
  · simp [hf]

theorem toggleClick_parentNode (l : Listener) (s : Page) (i : Nat) :
    ((toggleClick l s).nodes i).parentNode =
      if i ∈ (s.nodes l.toggleBtn).children then ParentRef.detached
      else (s.nodes i).parentNode := by
  rw [toggleClick_eq, setInnerHTML_parentNode, (modify_type_children s _ _ _).1,
    (modify_type_children s _ _ _).2]

theorem toggleClick_children_self (l : Listener) (s : Page) :
    ((toggleClick l s).nodes l.toggleBtn).children = [] := by
  rw [toggleClick_eq]
  exact setInnerHTML_children_self _ _ _

theorem toggleClick_children_other (l : Listener) (s : Page) (i : Nat)
    (H : ∀ c ∈ (s.nodes l.toggleBtn).children,
      (s.nodes c).parentNode = ParentRef.element l.toggleBtn ∨
      (s.nodes c).parentNode = ParentRef.detached) (hi : i ≠ l.toggleBtn) :
    ((toggleClick l s).nodes i).children = (s.nodes i).children := by
  rw [toggleClick_eq, setInnerHTML_children_other _ _ _ _ _ hi, (modify_type_children s _ _ _).1]
  intro c hc
  rw [(modify_type_children s _ _ _).1] at hc
  rw [(modify_type_children s _ _ _).2]
  exact H c hc

theorem toggleClick_keeps_child (l : Listener) (s : Page) (c p : Nat)
    (hc : c ∉ (s.nodes l.toggleBtn).children) (hp : p ≠ l.toggleBtn)
    (hmem : c ∈ (s.nodes p).children) : c ∈ ((toggleClick l s).nodes p).children := by
  rw [toggleClick_eq]
  apply setInnerHTML_keeps_child _ _ _ _ _ _ hp
  · rw [(modify_type_children s _ _ _).1]; exact hmem
  · rw [(modify_type_children s _ _ _).1]; exact hc

theorem toggleClick_children_subset (l : Listener) (s : Page) (c p : Nat)
    (h : c ∈ ((toggleClick l s).nodes p).children) : c ∈ (s.nodes p).children := by
  rw [toggleClick_eq] at h
  have := setInnerHTML_children_subset _ _ _ _ _ h
  rw [(modify_type_children s _ _ _).1] at this
  exact this

/-! ## Dispatch of clicks -/

theorem shrinks_refl (u : Page) : Shrinks u u :=
  ⟨rfl, rfl, rfl, rfl, fun _ => ⟨rfl, rfl, rfl, rfl, Or.inl rfl⟩⟩

theorem shrinks_trans {u v w : Page} (h1 : Shrinks u v) (h2 : Shrinks v w) : Shrinks u w := by
  obtain ⟨a1, a2, a3, a4, a5⟩ := h1
  obtain ⟨b1, b2, b3, b4, b5⟩ := h2
  refine ⟨by rw [b1, a1], by rw [b2, a2], by rw [b3, a3], by rw [b4, a4], ?_⟩
  intro i
  obtain ⟨c1, c2, c3, c4, c5⟩ := a5 i
  obtain ⟨d1, d2, d3, d4, d5⟩ := b5 i
  refine ⟨by rw [d1, c1], by rw [d2, c2], by rw [d3, c3], by rw [d4, c4], ?_⟩
  rcases d5 with h | h
  · rw [h]; exact c5
  · exact Or.inr h

theorem toggleClick_shrinks (l : Listener) (s : Page) : Shrinks s (toggleClick l s) := by
  obtain ⟨h1, h2, h3, h4⟩ := toggleClick_frame l s
  refine ⟨h1, h2, h3, h4, ?_⟩
  intro i
  obtain ⟨a1, a2, a3, a4, -, -⟩ := toggleClick_attrs l s i
  refine ⟨a1, a2, a3, a4, ?_⟩
  rw [toggleClick_parentNode]
  split_ifs
  · exact Or.inr rfl
  · exact Or.inl rfl

theorem foldl_shrinks {α : Type} (f : Page → α → Page) (h : ∀ u a, Shrinks u (f u a))
    (xs : List α) : ∀ u, Shrinks u (xs.foldl f u) := by
  induction xs with
  | nil => intro u; exact shrinks_refl u
  | cons x xs ih =>
    intro u
    simp only [List.foldl_cons]
    exact shrinks_trans (h u x) (ih _)

theorem dispatch_shrinks (u : Page) (i : Nat) : Shrinks u (dispatch u i) := by
  unfold dispatch
  split_ifs
  · exact foldl_shrinks (fun st l => toggleClick l st) (fun u l => toggleClick_shrinks l u) _ u
  · exact shrinks_refl u

theorem click_shrinks (u : Page) (x : Nat) : Shrinks u (click u x) := by
  unfold click
  split_ifs
  · exact foldl_shrinks dispatch dispatch_shrinks _ u
  · exact shrinks_refl u

theorem click_count (t : Page) (x : Nat) : (click t x).count = t.count :=
  (click_shrinks t x).1

theorem click_log (t : Page) (x : Nat) :
    (click t x).timers = t.timers ∧ (click t x).closed = t.closed ∧
      (click t x).now = t.now :=
  ⟨(click_shrinks t x).2.2.1, (click_shrinks t x).2.2.2.1, (click_shrinks t x).2.1⟩

theorem closeAll_nodes (as : List Nat) : ∀ (s s' : Page), s'.nodes = s.nodes →
    (as.foldl alertClose s').nodes = (as.foldl remove s).nodes := by
  induction as with
  | nil => intro s s' h; exact h
  | cons a as ih =>
    intro s s' h
    simp only [List.foldl_cons]
    apply ih
    unfold alertClose remove
    simp only [h]
    split <;> simp [Page.modify, h]

theorem removeAll_not_mem (as : List Nat) : ∀ (s : Page) (a p : Nat), a ∈ as →
    (s.nodes a).parentNode = ParentRef.element p →
    a ∉ ((as.foldl remove s).nodes p).children := by
  induction as with
  | nil => intro s a p h; cases h
  | cons x as ih =>
    intro s a p ha hp
    simp only [List.foldl_cons]
    by_cases hx : x = a
    · subst hx
      intro hmem
      have := removeAll_children_subset as (remove s x) x p hmem
      rw [remove_children, if_pos hp] at this
      have := (List.mem_filter.mp this).2
      simp at this
    · have ha' : a ∈ as := by
        rcases List.mem_cons.mp ha with h | h
        · exact absurd h.symm hx
        · exact h
      apply ih (remove s x) a p ha'
      rw [remove_parentNode, if_neg (Ne.symm hx)]
      exact hp

/-! ## The handlers and the buttons of load time persist -/

theorem dispatch_toggle (c0 : Nat) (fs : List Nat) (par : Nat → Nat) (t : Page)
    (h : Registry c0 fs par t) (k : Nat) (hk : k < fs.length) :
    dispatch t (c0 + k) = toggleClick { field := fs[k], toggleBtn := c0 + k } t := by
  have hb : c0 + k < t.count := by have := h.1; omega
  unfold dispatch
  rw [if_pos hb, h.2.1 _ hb, listenersAt_button c0 fs k hk]
  rfl

theorem dispatch_other (c0 : Nat) (fs : List Nat) (par : Nat → Nat) (t : Page)
    (h : Registry c0 fs par t) (i : Nat) (hi : ∀ k, k < fs.length → i ≠ c0 + k) :
    dispatch t i = t := by
  unfold dispatch
  split_ifs with hlt
  · rw [h.2.1 _ hlt, listenersAt_other c0 fs i hi]
    rfl
  · rfl

theorem registry_toggleClick (c0 : Nat) (fs : List Nat) (par : Nat → Nat)
    (hpar : ∀ k, k < fs.length → par k < c0) (t : Page) (h : Registry c0 fs par t)
    (k : Nat) (hk : k < fs.length) :
    Registry c0 fs par (toggleClick { field := fs[k], toggleBtn := c0 + k } t) := by
  obtain ⟨r1, r2, r3⟩ := h
  obtain ⟨f1, -, -, -⟩ := toggleClick_frame { field := fs[k], toggleBtn := c0 + k } t
  have hkids : ∀ c ∈ (t.nodes (c0 + k)).children,
      (t.nodes c).parentNode = ParentRef.element (c0 + k) ∨
      (t.nodes c).parentNode = ParentRef.detached :=
    fun c hc => Or.inl ((r3 k hk).2.2.2 c hc).2.2
  have hnot : ∀ j, j < fs.length → c0 + j ∉ (t.nodes (c0 + k)).children := by
    intro j hj hmem
    have := ((r3 k hk).2.2.2 _ hmem).1
    omega
  refine ⟨by rw [f1]; exact r1, ?_, ?_⟩
  · intro i hi
    rw [(toggleClick_attrs _ t i).2.2.2.1]
    exact r2 i (by rw [f1] at hi; exact hi)
  · intro j hj
    obtain ⟨p1, p2, p3, p4⟩ := r3 j hj
    refine ⟨?_, ?_, ?_, ?_⟩
    · rw [toggleClick_parentNode]
      show (if c0 + j ∈ (t.nodes (c0 + k)).children then ParentRef.detached
        else (t.nodes (c0 + j)).parentNode) = _
      rw [if_neg (hnot j hj)]
      exact p1
    · apply toggleClick_keeps_child _ t _ _ (hnot j hj) _ p2
      show par j ≠ c0 + k
      have := hpar j hj
      omega
    · rw [(toggleClick_attrs _ t _).2.1]
      exact p3
    · by_cases hjk : j = k
      · subst hjk
        intro c hc
        have hnil := toggleClick_children_self { field := fs[j], toggleBtn := c0 + j } t
        have hnil' : ((toggleClick { field := fs[j], toggleBtn := c0 + j } t).nodes
            (c0 + j)).children = [] := hnil
        rw [hnil'] at hc
        cases hc
      · intro c hc
        rw [toggleClick_children_other _ t (c0 + j) hkids (by show c0 + j ≠ c0 + k; omega)] at hc
        obtain ⟨q1, q2, q3⟩ := p4 c hc
        refine ⟨q1, by rw [f1]; exact q2, ?_⟩
        rw [toggleClick_parentNode]
        show (if c ∈ (t.nodes (c0 + k)).children then ParentRef.detached
          else (t.nodes c).parentNode) = _
        have hck : c ∉ (t.nodes (c0 + k)).children := by
          intro hmem
          have := ((r3 k hk).2.2.2 c hmem).2.2
          rw [q3] at this
          injection this with this
          omega
        rw [if_neg hck]
        exact q3

theorem registry_dispatch (c0 : Nat) (fs : List Nat) (par : Nat → Nat)
    (hpar : ∀ k, k < fs.length → par k < c0) (t : Page) (h : Registry c0 fs par t)
    (i : Nat) : Registry c0 fs par (dispatch t i) := by
  by_cases hex : ∃ k, k < fs.length ∧ i = c0 + k
  · obtain ⟨k, hk, rfl⟩ := hex
    rw [dispatch_toggle c0 fs par t h k hk]
    exact registry_toggleClick c0 fs par hpar t h k hk
  · rw [dispatch_other c0 fs par t h i (fun k hk he => hex ⟨k, hk, he⟩)]
    exact h

theorem registry_path (c0 : Nat) (fs : List Nat) (par : Nat → Nat)
    (hpar : ∀ k, k < fs.length → par k < c0) (path : List Nat) :
    ∀ t, Registry c0 fs par t → Registry c0 fs par (path.foldl dispatch t) := by
  induction path with
  | nil => intro t h; exact h
  | cons i path ih =>
    intro t h
    simp only [List.foldl_cons]
    exact ih _ (registry_dispatch c0 fs par hpar t h i)

theorem registry_click (c0 : Nat) (fs : List Nat) (par : Nat → Nat)
    (hpar : ∀ k, k < fs.length → par k < c0) (t : Page) (h : Registry c0 fs par t)
    (x : Nat) : Registry c0 fs par (click t x) := by
  unfold click
  split_ifs
  · exact registry_path c0 fs par hpar _ t h
  · exact h

theorem registry_closeAll (c0 : Nat) (fs : List Nat) (par : Nat → Nat) (u : Page)
    (h : Registry c0 fs par u) :
    Registry c0 fs par ((querySelectorAll u alertSelector).foldl alertClose u) := by
  obtain ⟨r1, r2, r3⟩ := h
  obtain ⟨h1, -, -, -, h5, h6⟩ := closeAll_spec (querySelectorAll u alertSelector) u
  have hn := closeAll_nodes (querySelectorAll u alertSelector) u u rfl
  refine ⟨by rw [h1]; exact r1, ?_, ?_⟩
  · intro i hi
    rw [attrs_clickListeners (h5 i)]
    exact r2 i (by rw [h1] at hi; exact hi)
  · intro j hj
    obtain ⟨p1, p2, p3, p4⟩ := r3 j hj
    have hnot : c0 + j ∉ querySelectorAll u alertSelector := by
      intro hq
      rw [mem_query, selects_alert] at hq
      exact p3 hq.2.1
    refine ⟨by rw [h6, if_neg hnot]; exact p1,
      closeAll_keeps_child _ u _ _ hnot p2, by rw [attrs_classList (h5 _)]; exact p3, ?_⟩
    intro c hc
    rw [hn] at hc
    have hc0 := removeAll_children_subset _ u c _ hc
    obtain ⟨q1, q2, q3⟩ := p4 c hc0
    refine ⟨q1, by rw [h1]; exact q2, ?_⟩
    rw [h6]
    split_ifs with hcA
    · exact absurd hc (removeAll_not_mem _ u c _ hcA q3)
    · exact q3

theorem registry_fire (c0 : Nat) (fs : List Nat) (par : Nat → Nat) (t : Page)
    (h : Registry c0 fs par t) : Registry c0 fs par (fireTimer t) := by
  unfold fireTimer
  split
  · exact h
  · rename_i tm rest _
    split_ifs
    · exact registry_closeAll c0 fs par { t with timers := rest } h
    · exact h

theorem registry_insert (c0 : Nat) (fs : List Nat) (par : Nat → Nat)
    (hpar : ∀ k, k < fs.length → par k < c0) (t : Page) (h : Registry c0 fs par t)
    (tag ty : String) (cls : List String) (parent : Nat) :
    Registry c0 fs par (insertElement t tag ty cls parent) := by
  by_cases hp : parent < t.count
  · obtain ⟨r1, r2, r3⟩ := h
    obtain ⟨hc, -, -, -, hn⟩ := insertElement_spec t tag ty cls parent hp
    refine ⟨by omega, ?_, ?_⟩
    · intro i hi
      rw [hn i]
      by_cases hit : i = t.count
      · rw [if_pos hit, listenersAt_other]
        · rfl
        · intro k hk; omega
      · rw [if_neg hit]
        have hlt : i < t.count := by omega
        split_ifs with hip
        · subst hip; exact r2 i hlt
        · exact r2 i hlt
    · intro j hj
      obtain ⟨p1, p2, p3, p4⟩ := r3 j hj
      have hb : c0 + j < t.count := by omega
      have hpj : par j < t.count := by have := hpar j hj; omega
      have hnodeb : (insertElement t tag ty cls parent).nodes (c0 + j) =
          if c0 + j = parent then
            { t.nodes parent with children := (t.nodes parent).children ++ [t.count] }
          else t.nodes (c0 + j) := by
        rw [hn, if_neg (Nat.ne_of_lt hb)]
      refine ⟨?_, ?_, ?_, ?_⟩
      · rw [hnodeb]
        split_ifs with hbp
        · rw [← hbp]; exact p1
        · exact p1
      · rw [hn, if_neg (Nat.ne_of_lt hpj)]
        split_ifs with hpp
        · rw [← hpp]; exact List.mem_append_left _ p2
        · exact p2
      · rw [hnodeb]
        split_ifs with hbp
        · rw [← hbp]; exact p3
        · exact p3
      · intro c hc
        rw [hnodeb] at hc
        have hold : ∀ c, c ∈ (t.nodes (c0 + j)).children →
            c0 + fs.length ≤ c ∧ c < (insertElement t tag ty cls parent).count ∧
            ((insertElement t tag ty cls parent).nodes c).parentNode =
              ParentRef.element (c0 + j) := by
          intro c hc
          obtain ⟨q1, q2, q3⟩ := p4 c hc
          refine ⟨q1, by omega, ?_⟩
          rw [hn, if_neg (Nat.ne_of_lt q2)]
          split_ifs with hcp
          · rw [← hcp]; exact q3
          · exact q3
        split_ifs at hc with hbp
        · rcases List.mem_append.mp hc with hc | hc
          · rw [← hbp] at hc; exact hold c hc
          · have hcn : c = t.count := by simpa using hc
            subst hcn
            refine ⟨r1, by omega, ?_⟩
            rw [hn, if_pos rfl, hbp]
        · exact hold c hc
  · rw [insertElement_skip t tag ty cls parent hp]
    exact h

theorem registry_step (c0 : Nat) (fs : List Nat) (par : Nat → Nat)
    (hpar : ∀ k, k < fs.length → par k < c0) (t : Page) (h : Registry c0 fs par t)
    (e : Event) : Registry c0 fs par (step t e) := by
  cases e with
  | click x => exact registry_click c0 fs par hpar t h x
  | advance dt => exact h
  | timeout => exact registry_fire c0 fs par t h
  | insert tag ty cls parent => exact registry_insert c0 fs par hpar t h tag ty cls parent

theorem registry_run (c0 : Nat) (fs : List Nat) (par : Nat → Nat)
    (hpar : ∀ k, k < fs.length → par k < c0) (evs : List Event) :
    ∀ t, Registry c0 fs par t → Registry c0 fs par (run t evs) := by
  induction evs with
  | nil => intro t h; exact h
  | cons e evs ih =>
    intro t h
    rw [run_cons]
    exact ih _ (registry_step c0 fs par hpar t h e)

theorem parentsAt_eq (s : Page) (fs : List Nat) (k : Nat) (hk : k < fs.length) (p : Nat)
    (hp : (s.nodes fs[k]).parentElement = some p) : parentsAt s fs k = p := by
  unfold parentsAt
  rw [List.getElem?_eq_getElem hk]
  simp [hp]

theorem parentsAt_lt (s : Page) (H : Hosted s) (k : Nat)
    (hk : k < (querySelectorAll s passwordSelector).length) :
    parentsAt s (querySelectorAll s passwordSelector) k < s.count := by
  obtain ⟨-, p, hp, hp'⟩ := H _ (List.getElem_mem hk)
  rw [parentsAt_eq s _ k hk p hp']
  exact hp

theorem load_registry (s s1 : Page) (hF : Fresh s) (H : Hosted s)
    (h1 : onDOMContentLoaded s = some s1) :
    Registry s.count (querySelectorAll s passwordSelector)
      (parentsAt s (querySelectorAll s passwordSelector)) s1 := by
  obtain ⟨s1', h1', hc, -, -, -, hlow, hbtn⟩ := load_spec s H
  rw [h1] at h1'
  cases Option.some.inj h1'
  refine ⟨by omega, fun i hi => load_listeners s s1 hF H h1 i hi, ?_⟩
  intro k hk
  obtain ⟨p, hp, hnode⟩ := hbtn k hk
  obtain ⟨-, q, hq, hq'⟩ := H _ (List.getElem_mem hk)
  have hpq : p = q := by rw [hp] at hq'; exact Option.some.inj hq'
  subst hpq
  rw [parentsAt_eq s _ k hk p hp, hnode]
  refine ⟨rfl, ?_, ?_, ?_⟩
  · rw [hlow p hq]
    exact List.mem_append_right _ (mem_buttonsFor s p _ s.count k hk hp)
  · show "alert" ∉ ["btn", "btn-outline-secondary"]
    decide
  · intro c hc
    cases hc

theorem reach_registry (s s1 : Page) (hF : Fresh s) (H : Hosted s)
    (h1 : onDOMContentLoaded s = some s1) (evs : List Event) :
    Registry s.count (querySelectorAll s passwordSelector)
      (parentsAt s (querySelectorAll s passwordSelector)) (run s1 evs) :=
  registry_run _ _ _ (parentsAt_lt s H) evs s1 (load_registry s s1 hF H h1)

/-! ## Well-formed pages stay well-formed -/

theorem shrinks_wellFormed {u u' : Page} (h : Shrinks u u') (hW : WellFormed u) :
    WellFormed u' := by
  intro i hi p hp
  obtain ⟨hc, -, -, -, hn⟩ := h
  rcases (hn i).2.2.2.2 with e | e
  · rw [e] at hp
    exact hW i (by rw [hc] at hi; exact hi) p hp
  · rw [e] at hp; cases hp

theorem step_count_le (t : Page) (e : Event) : t.count ≤ (step t e).count := by
  cases e with
  | click x => exact Nat.le_of_eq (click_count t x).symm
  | advance dt => exact Nat.le_refl _
  | timeout => exact Nat.le_of_eq (fireTimer_frame t).1.symm
  | insert tag ty cls parent =>
    show t.count ≤ (insertElement t tag ty cls parent).count
    by_cases hp : parent < t.count
    · have := (insertElement_spec t tag ty cls parent hp).1
      omega
    · rw [insertElement_skip t tag ty cls parent hp]

theorem run_count_le (evs : List Event) : ∀ (t : Page), t.count ≤ (run t evs).count := by
  induction evs with
  | nil => intro t; exact Nat.le_refl _
  | cons e evs ih =>
    intro t
    rw [run_cons]
    exact Nat.le_trans (step_count_le t e) (ih _)

theorem step_wellFormed (t : Page) (e : Event) (hW : WellFormed t) :
    WellFormed (step t e) := by
  cases e with
  | click x => exact shrinks_wellFormed (click_shrinks t x) hW
  | advance dt => exact hW
  | timeout =>
    intro i hi p hp
    have hc : (fireTimer t).count = t.count := (fireTimer_frame t).1
    have hi' : i < t.count := by
      have : i < (fireTimer t).count := hi
      omega
    have hp' : ((fireTimer t).nodes i).parentNode = ParentRef.element p := hp
    rcases fireTimer_parentNode t i with h | h
    · rw [h] at hp'; exact hW i hi' p hp'
    · rw [h] at hp'; cases hp'
  | insert tag ty cls parent =>
    show WellFormed (insertElement t tag ty cls parent)
    by_cases hpar : parent < t.count
    · obtain ⟨hc, -, -, -, hn⟩ := insertElement_spec t tag ty cls parent hpar
      intro i hi p hp
      rw [hn i] at hp
      by_cases hit : i = t.count
      · rw [if_pos hit] at hp
        have : parent = p := by injection hp
        omega
      · rw [if_neg hit] at hp
        have hlt : i < t.count := by omega
        split_ifs at hp with hip
        · subst hip; exact hW i hlt p hp
        · exact hW i hlt p hp
    · rw [insertElement_skip t tag ty cls parent hpar]
      exact hW

/-! ## The propagation path of a click -/

theorem mem_eventPath_self (n : Nat → Element) (fuel x : Nat) :
    x ∈ eventPath n (fuel + 1) x := by
  unfold eventPath
  exact List.mem_cons_self _ _

theorem eventPath_le (n : Nat → Element) (c : Nat)
    (hW : ∀ i, i < c → ∀ p, (n i).parentNode = ParentRef.element p → p < i) :
    ∀ fuel x, x < c → ∀ i ∈ eventPath n fuel x, i ≤ x := by
  intro fuel
  induction fuel with
  | zero => intro x _ i hi; simp [eventPath] at hi
  | succ fuel ih =>
    intro x hx i hi
    unfold eventPath at hi
    rcases List.mem_cons.mp hi with h | h
    · omega
    · cases hpar : (n x).parentNode with
      | detached => rw [hpar] at h; cases h
      | document => rw [hpar] at h; cases h
      | element p =>
        rw [hpar] at h
        have hp := hW x hx p hpar
        have := ih p (by omega) i h
        omega

theorem path_fold_none (c0 : Nat) (fs : List Nat) (par : Nat → Nat) (path : List Nat) :
    ∀ t, Registry c0 fs par t → (∀ i ∈ path, ∀ k, k < fs.length → i ≠ c0 + k) →
      path.foldl dispatch t = t := by
  induction path with
  | nil => intro t _ _; rfl
  | cons i path ih =>
    intro t h hno
    simp only [List.foldl_cons]
    rw [dispatch_other c0 fs par t h i (hno i (List.mem_cons_self _ _))]
    exact ih t h (fun j hj => hno j (List.mem_cons_of_mem _ hj))

theorem path_fold_toggle (c0 : Nat) (fs : List Nat) (par : Nat → Nat)
    (hpar : ∀ k, k < fs.length → par k < c0) (t : Page) (hW : WellFormed t)
    (h : Registry c0 fs par t) (k : Nat) (hk : k < fs.length) :
    ∀ fuel x, x < t.count → c0 + k ∈ eventPath t.nodes fuel x →
      (eventPath t.nodes fuel x).foldl dispatch t =
        toggleClick { field := fs[k], toggleBtn := c0 + k } t := by
  intro fuel
  induction fuel with
  | zero => intro x _ hmem; simp [eventPath] at hmem
  | succ fuel ih =>
    intro x hx hmem
    have hlow : ∀ j, j < fs.length → ∀ i ∈ eventPath t.nodes fuel (par j),
        ∀ k', k' < fs.length → i ≠ c0 + k' := by
      intro j hj i hi k' _ he
      have h1 := eventPath_le t.nodes t.count hW fuel (par j)
        (by have := hpar j hj; have := h.1; omega) i hi
      have := hpar j hj
      omega
    unfold eventPath at hmem ⊢
    simp only [List.foldl_cons]
    by_cases hxk : x = c0 + k
    · subst hxk
      rw [dispatch_toggle c0 fs par t h k hk, (h.2.2 k hk).1]
      simp only
      have h' := registry_toggleClick c0 fs par hpar t h k hk
      exact path_fold_none c0 fs par _ _ h' (hlow k hk)
    · have htail : c0 + k ∈ (match (t.nodes x).parentNode with
          | ParentRef.element p => eventPath t.nodes fuel p
          | _ => []) := by
        rcases List.mem_cons.mp hmem with he | he
        · exact absurd he.symm hxk
        · exact he
      have hnot : ∀ j, j < fs.length → x ≠ c0 + j := by
        intro j hj he
        subst he
        rw [(h.2.2 j hj).1] at htail
        exact hlow j hj _ htail k hk rfl
      rw [dispatch_other c0 fs par t h x hnot]
      cases hp : (t.nodes x).parentNode with
      | detached => rw [hp] at htail; cases htail
      | document => rw [hp] at htail; cases htail
      | element p =>
        rw [hp] at htail
        simp only
        exact ih p (by have := hW x hx p hp; omega) htail

theorem path_toggle_unique (c0 : Nat) (fs : List Nat) (par : Nat → Nat)
    (hpar : ∀ k, k < fs.length → par k < c0) (t : Page) (hW : WellFormed t)
    (h : Registry c0 fs par t) (k j : Nat) (hk : k < fs.length) (hj : j < fs.length) :
    ∀ fuel x, x < t.count → c0 + k ∈ eventPath t.nodes fuel x →
      c0 + j ∈ eventPath t.nodes fuel x → k = j := by
  intro fuel
  induction fuel with
  | zero => intro x _ hmem; simp [eventPath] at hmem
  | succ fuel ih =>
    intro x hx hmk hmj
    have hlow : ∀ a, a < fs.length → ∀ i ∈ eventPath t.nodes fuel (par a), i < c0 := by
      intro a ha i hi
      have h1 := eventPath_le t.nodes t.count hW fuel (par a)
        (by have := hpar a ha; have := h.1; omega) i hi
      have := hpar a ha
      omega
    unfold eventPath at hmk hmj
    rcases List.mem_cons.mp hmk with ek | ek
    · rcases List.mem_cons.mp hmj with ej | ej
      · omega
      · rw [← ek, (h.2.2 k hk).1] at ej
        have := hlow k hk _ ej
        omega
    · rcases List.mem_cons.mp hmj with ej | ej
      · rw [← ej, (h.2.2 j hj).1] at ek
        have := hlow j hj _ ek
        omega
      · cases hp : (t.nodes x).parentNode with
        | detached => rw [hp] at ek; cases ek
        | document => rw [hp] at ek; cases ek
        | element p =>
          rw [hp] at ek ej
          exact ih p (by have := hW x hx p hp; omega) ek ej

theorem reaches_click (t : Page) (b x : Nat) :
    reaches t b (Event.click x) = true ↔ x < t.count ∧ b ∈ eventPath t.nodes t.count x := by
  simp [reaches]

theorem click_eq_toggle (c0 : Nat) (fs : List Nat) (par : Nat → Nat)
    (hpar : ∀ k, k < fs.length → par k < c0) (t : Page) (hW : WellFormed t)
    (h : Registry c0 fs par t) (k : Nat) (hk : k < fs.length) (x : Nat)
    (hr : reaches t (c0 + k) (Event.click x) = true) :
    click t x = toggleClick { field := fs[k], toggleBtn := c0 + k } t := by
  obtain ⟨hx, hmem⟩ := (reaches_click t _ x).mp hr
  unfold click
  rw [if_pos hx]
  exact path_fold_toggle c0 fs par hpar t hW h k hk _ x hx hmem

theorem click_eq_self (c0 : Nat) (fs : List Nat) (par : Nat → Nat) (t : Page)
    (h : Registry c0 fs par t) (x : Nat)
    (hr : ∀ k, k < fs.length → reaches t (c0 + k) (Event.click x) = false) :
    click t x = t := by
  unfold click
  split_ifs with hx
  · apply path_fold_none c0 fs par _ t h
    intro i hi k hk he
    have := hr k hk
    rw [← he] at this
    have h2 : reaches t i (Event.click x) = true := (reaches_click t i x).mpr ⟨hx, hi⟩
    rw [h2] at this
    cases this
  · rfl

theorem reaches_self (t : Page) (b : Nat) (hb : b < t.count) :
    reaches t b (Event.click b) = true := by
  rw [reaches_click]
  refine ⟨hb, ?_⟩
  obtain ⟨n, hn⟩ : ∃ n, t.count = n + 1 := ⟨t.count - 1, by omega⟩
  rw [hn]
  exact mem_eventPath_self _ _ _

/-! ## Mode and icon along a sequence of events -/

theorem clicksOn_append (b : Nat) (evs : List Event) (e : Event) : ∀ (t : Page),
    clicksOn b t (evs ++ [e]) =
      clicksOn b t evs + if reaches (run t evs) b e then 1 else 0 := by
  induction evs with
  | nil => intro t; simp [clicksOn, run]
  | cons a evs ih =>
    intro t
    show (if reaches t b a then 1 else 0) + clicksOn b (step t a) (evs ++ [e]) =
      (if reaches t b a then 1 else 0) + clicksOn b (step t a) evs +
        if reaches (run (step t a) evs) b e then 1 else 0
    rw [ih (step t a)]
    omega

theorem modes_frame (c0 : Nat) (fs : List Nat) (cnt cnt' : Nat → Nat) (t t' : Page)
    (hlt : ∀ f ∈ fs, f < c0) (hc : c0 + fs.length ≤ t.count) (h : Modes c0 fs cnt t)
    (hcnt : ∀ k, k < fs.length → cnt' (c0 + k) = cnt (c0 + k))
    (hty : ∀ i, i < t.count → (t'.nodes i).type = (t.nodes i).type ∧
      (t'.nodes i).innerHTML = (t.nodes i).innerHTML) :
    Modes c0 fs cnt' t' := by
  intro k hk
  have hf : fs[k] < t.count := by
    have := hlt fs[k] (List.getElem_mem _); omega
  have hb : c0 + k < t.count := by omega
  have := h k hk
  rw [hcnt k hk]
  unfold Masked Revealed at this ⊢
  rw [(hty _ hf).1, (hty _ hb).2]
  exact this

theorem modes_toggleClick (c0 : Nat) (fs : List Nat) (hnd : fs.Nodup)
    (hlt : ∀ f ∈ fs, f < c0) (cnt cnt' : Nat → Nat) (t : Page) (h : Modes c0 fs cnt t)
    (k : Nat) (hk : k < fs.length)
    (hcnt : ∀ j, j < fs.length →
      cnt' (c0 + j) = cnt (c0 + j) + if j = k then 1 else 0) :
    Modes c0 fs cnt' (toggleClick { field := fs[k], toggleBtn := c0 + k } t) := by
  intro j hj
  have hfj : fs[j] < c0 := hlt _ (List.getElem_mem _)
  have hfk : fs[k] < c0 := hlt _ (List.getElem_mem _)
  have hj3 := h j hj
  rw [hcnt j hj]
  unfold Masked Revealed at hj3 ⊢
  rw [(toggleClick_attrs _ t _).2.2.2.2.1, (toggleClick_attrs _ t _).2.2.2.2.2]
  by_cases hjk : j = k
  · subst hjk
    simp only [if_true]
    by_cases hpar : cnt (c0 + j) % 2 = 0
    · have hpar' : ¬ (cnt (c0 + j) + 1) % 2 = 0 := by omega
      rw [if_pos hpar] at hj3
      rw [if_neg hpar']
      simp [hj3.1]
    · have hpar' : (cnt (c0 + j) + 1) % 2 = 0 := by omega
      rw [if_neg hpar] at hj3
      rw [if_pos hpar']
      simp [hj3.1]
  · have hff : fs[j] ≠ fs[k] := by
      intro he
      exact hjk ((List.Nodup.getElem_inj_iff hnd).mp he)
    have hb : c0 + j ≠ c0 + k := by omega
    simp only [hjk, if_false, Nat.add_zero, hff, hb]
    exact hj3

theorem modes_step (c0 : Nat) (fs : List Nat) (par : Nat → Nat) (hnd : fs.Nodup)
    (hlt : ∀ f ∈ fs, f < c0) (hpar : ∀ k, k < fs.length → par k < c0)
    (cnt cnt' : Nat → Nat) (t : Page) (e : Event) (hW : WellFormed t)
    (hR : Registry c0 fs par t) (h : Modes c0 fs cnt t)
    (hcnt : ∀ k, k < fs.length →
      cnt' (c0 + k) = cnt (c0 + k) + if reaches t (c0 + k) e then 1 else 0) :
    Modes c0 fs cnt' (step t e) := by
  have hquiet : (∀ b, reaches t b e = false) →
      (∀ i, i < t.count → ((step t e).nodes i).type = (t.nodes i).type ∧
        ((step t e).nodes i).innerHTML = (t.nodes i).innerHTML) →
      Modes c0 fs cnt' (step t e) := by
    intro hr hty
    apply modes_frame c0 fs cnt cnt' t _ hlt hR.1 h _ hty
    intro k hk
    rw [hcnt k hk, hr]
    simp
  cases e with
  | click x =>
    by_cases hex : ∃ k, k < fs.length ∧ reaches t (c0 + k) (Event.click x) = true
    · obtain ⟨k, hk, hr⟩ := hex
      show Modes c0 fs cnt' (click t x)
      rw [click_eq_toggle c0 fs par hpar t hW hR k hk x hr]
      apply modes_toggleClick c0 fs hnd hlt cnt cnt' t h k hk
      intro j hj
      rw [hcnt j hj]
      by_cases hjk : j = k
      · subst hjk
        rw [hr]
        simp
      · have hrj : reaches t (c0 + j) (Event.click x) = false := by
          by_contra hne
          have hne' : reaches t (c0 + j) (Event.click x) = true := by simpa using hne
          obtain ⟨hx, hmk⟩ := (reaches_click t _ x).mp hr
          obtain ⟨-, hmj⟩ := (reaches_click t _ x).mp hne'
          exact hjk (path_toggle_unique c0 fs par hpar t hW hR k j hk hj _ x hx hmk hmj).symm
        rw [hrj]
        simp [hjk]
    · have hno : ∀ k, k < fs.length → reaches t (c0 + k) (Event.click x) = false := by
        intro k hk
        by_contra hne
        exact hex ⟨k, hk, by simpa using hne⟩
      have hstep : step t (Event.click x) = t := click_eq_self c0 fs par t hR x hno
      rw [hstep]
      apply modes_frame c0 fs cnt cnt' t t hlt hR.1 h _ (fun _ _ => ⟨rfl, rfl⟩)
      intro k hk
      rw [hcnt k hk, hno k hk]
      simp
  | advance dt => exact hquiet (fun _ => rfl) (fun _ _ => ⟨rfl, rfl⟩)
  | timeout =>
    apply hquiet (fun _ => rfl)
    intro i _
    have := (fireTimer_frame t).2.2 i
    exact ⟨attrs_type this, attrs_innerHTML this⟩
  | insert tag ty cls parent =>
    apply hquiet (fun _ => rfl)
    intro i hi
    show ((insertElement t tag ty cls parent).nodes i).type = _ ∧
      ((insertElement t tag ty cls parent).nodes i).innerHTML = _
    by_cases hp : parent < t.count
    · rw [(insertElement_spec t tag ty cls parent hp).2.2.2.2 i, if_neg (Nat.ne_of_lt hi)]
      split_ifs with hip
      · subst hip; exact ⟨rfl, rfl⟩
      · exact ⟨rfl, rfl⟩
    · rw [insertElement_skip t tag ty cls parent hp]
      exact ⟨rfl, rfl⟩

theorem run_wellFormed (evs : List Event) : ∀ (t : Page), WellFormed t →
    WellFormed (run t evs) := by
  induction evs with
  | nil => intro t h; exact h
  | cons e evs ih =>
    intro t h
    rw [run_cons]
    exact ih _ (step_wellFormed t e h)

theorem load_wellFormed (s s1 : Page) (hW : WellFormed s) (H : Hosted s)
    (h1 : onDOMContentLoaded s = some s1) : WellFormed s1 := by
  obtain ⟨s1', h1', hc, -, -, -, hlow, hbtn⟩ := load_spec s H
  rw [h1] at h1'
  cases Option.some.inj h1'
  intro i hi p hp
  by_cases hlt : i < s.count
  · rw [hlow i hlt] at hp
    exact hW i hlt p hp
  · have hk : i - s.count < (querySelectorAll s passwordSelector).length := by omega
    obtain ⟨q, hq, hnode⟩ := hbtn (i - s.count) hk
    have e : s.count + (i - s.count) = i := by omega
    rw [e] at hnode
    rw [hnode] at hp
    have hpq : q = p := by
      have : ParentRef.element q = ParentRef.element p := hp
      injection this
    subst hpq
    have hf := fields_lt s _ (List.getElem_mem hk)
    have hq' : (s.nodes (querySelectorAll s passwordSelector)[i - s.count]).parentNode =
        ParentRef.element q := by
      unfold Element.parentElement at hq
      split at hq
      · rename_i p' hp'
        rw [hp']
        cases Option.some.inj hq
        rfl
      · cases hq
    have := hW _ hf q hq'
    omega

theorem load_modes (s s1 : Page) (H : Hosted s) (h1 : onDOMContentLoaded s = some s1) :
    Modes s.count (querySelectorAll s passwordSelector) (fun b => clicksOn b s1 []) s1 := by
  obtain ⟨s1', h1', hc, -, -, -, hlow, hbtn⟩ := load_spec s H
  rw [h1] at h1'
  cases Option.some.inj h1'
  intro k hk
  have hmem := List.getElem_mem hk
  rw [mem_query] at hmem
  obtain ⟨hlt, hsel, -⟩ := hmem
  rw [selects_password] at hsel
  obtain ⟨p, -, hp⟩ := hbtn k hk
  have h0 : clicksOn (s.count + k) s1 [] % 2 = 0 := rfl
  simp only [h0, if_true]
  refine ⟨?_, ?_⟩
  · rw [hlow _ hlt]; exact hsel.2
  · rw [hp]; rfl

theorem reach_wellFormed (s s1 : Page) (hW : WellFormed s) (H : Hosted s)
    (h1 : onDOMContentLoaded s = some s1) (evs : List Event) : WellFormed (run s1 evs) :=
  run_wellFormed evs s1 (load_wellFormed s s1 hW H h1)

theorem reach_modes (s s1 : Page) (hF : Fresh s) (H : Hosted s) (hW : WellFormed s)
    (h1 : onDOMContentLoaded s = some s1) (evs : List Event) :
    Modes s.count (querySelectorAll s passwordSelector) (fun b => clicksOn b s1 evs)
      (run s1 evs) := by
  induction evs using List.reverseRecOn with
  | nil => exact load_modes s s1 H h1
  | append_singleton evs e ih =>
    rw [run_append]
    exact modes_step s.count _ (parentsAt s (querySelectorAll s passwordSelector))
      (query_nodup s _) (fields_lt s) (parentsAt_lt s H) _ _ (run s1 evs) e
      (reach_wellFormed s s1 hW H h1 evs) (reach_registry s s1 hF H h1 evs) ih
      (fun k _ => clicksOn_append _ evs e s1)

theorem toggle_index (c0 : Nat) (fs : List Nat) (par : Nat → Nat) (t : Page)
    (h : Registry c0 fs par t) (b f : Nat) (hb : IsToggleOf t b f) :
    ∃ k, ∃ hk : k < fs.length, fs[k] = f ∧ b = c0 + k := by
  obtain ⟨hlt, hmem⟩ := hb
  rw [h.2.1 b hlt] at hmem
  unfold listenersAt at hmem
  split_ifs at hmem with hc
  · simp only [List.mem_map, Option.mem_toList, Option.mem_def] at hmem
    obtain ⟨g, hg, hgf⟩ := hmem
    have hgf' : g = f := by injection hgf
    obtain ⟨hk, hk'⟩ := List.getElem?_eq_some.mp hg
    exact ⟨b - c0, hk, by rw [hk', hgf'], by omega⟩
  · simp at hmem

theorem index_toggle (c0 : Nat) (fs : List Nat) (par : Nat → Nat) (t : Page)
    (h : Registry c0 fs par t) (k : Nat) (hk : k < fs.length) :
    IsToggleOf t (c0 + k) fs[k] := by
  have hlt : c0 + k < t.count := by have := h.1; omega
  refine ⟨hlt, ?_⟩
  rw [h.2.1 _ hlt, listenersAt_button c0 fs k hk]
  exact List.mem_singleton_self _

theorem step_log (t : Page) (e : Event) (he : e ≠ Event.timeout) :
    (step t e).timers = t.timers ∧ (step t e).closed = t.closed ∧
      t.now ≤ (step t e).now := by
  cases e with
  | click x =>
    obtain ⟨a, b, c⟩ := click_log t x
    exact ⟨a, b, Nat.le_of_eq c.symm⟩
  | advance dt => exact ⟨rfl, rfl, Nat.le_add_right _ _⟩
  | timeout => exact absurd rfl he
  | insert tag ty cls parent =>
    obtain ⟨a, b, c⟩ := insertElement_log t tag ty cls parent
    exact ⟨a, b, Nat.le_of_eq c.symm⟩

theorem run_log (evs : List Event) : ∀ (t : Page), Event.timeout ∉ evs →
    (run t evs).timers = t.timers ∧ (run t evs).closed = t.closed ∧
      t.now ≤ (run t evs).now := by
  induction evs with
  | nil => intro t _; exact ⟨rfl, rfl, Nat.le_refl _⟩
  | cons e evs ih =>
    intro t h
    have he : e ≠ Event.timeout := fun h' => h (h' ▸ List.mem_cons_self _ _)
    obtain ⟨a1, a2, a3⟩ := step_log t e he
    obtain ⟨b1, b2, b3⟩ := ih (step t e) (fun h' => h (List.mem_cons_of_mem _ h'))
    rw [run_cons]
    exact ⟨by rw [b1, a1], by rw [b2, a2], Nat.le_trans a3 b3⟩

theorem run_idle (evs : List Event) : ∀ (t : Page), t.timers = [] →
    (run t evs).timers = [] ∧ (run t evs).closed = t.closed := by
  induction evs with
  | nil => intro t h; exact ⟨h, rfl⟩
  | cons e evs ih =>
    intro t h
    rw [run_cons]
    by_cases he : e = Event.timeout
    · subst he
      have : step t Event.timeout = t := fireTimer_idle t h
      rw [this]
      exact ih t h
    · obtain ⟨a1, a2, -⟩ := step_log t e he
      obtain ⟨b1, b2⟩ := ih (step t e) (by rw [a1, h])
      exact ⟨b1, by rw [b2, a2]⟩

/-- In a well-formed page the fuel of `click` is enough: the propagation path
holds the target and every one of its ancestors. -/
theorem eventPath_closed (n : Nat → Element) (c : Nat)
    (hW : ∀ i, i < c → ∀ p, (n i).parentNode = ParentRef.element p → p < i) :
    ∀ fuel x, x < c → x < fuel → ∀ i ∈ eventPath n fuel x, ∀ p,
      (n i).parentNode = ParentRef.element p → p ∈ eventPath n fuel x := by
  intro fuel
  induction fuel with
  | zero => intro x _ hx; omega
  | succ fuel ih =>
    intro x hx hfuel i hi p hp
    unfold eventPath at hi ⊢
    rcases List.mem_cons.mp hi with h | h
    · subst h
      rw [hp]
      have hlt := hW i hx p hp
      obtain ⟨m, hm⟩ : ∃ m, fuel = m + 1 := ⟨fuel - 1, by omega⟩
      rw [hm]
      exact List.mem_cons_of_mem _ (mem_eventPath_self n m p)
    · cases hpar : (n x).parentNode with
      | detached => rw [hpar] at h; cases h
      | document => rw [hpar] at h; cases h
      | element q =>
        rw [hpar] at h
        have hq := hW x hx q hpar
        exact List.mem_cons_of_mem _ (ih q (by omega) (by omega) i h p hp)

theorem fold_dispatch_id (path : List Nat) (u : Page)
    (h : ∀ i ∈ path, i < u.count → (u.nodes i).clickListeners = []) :
    path.foldl dispatch u = u := by
  induction path with
  | nil => rfl
  | cons i path ih =>
    simp only [List.foldl_cons]
    have hd : dispatch u i = u := by
      unfold dispatch
      split_ifs with hi
      · rw [h i (List.mem_cons_self _ _) hi]; rfl
      · rfl
    rw [hd]
    exact ih (fun j hj => h j (List.mem_cons_of_mem _ hj))

theorem toggleButtons_eq (c0 : Nat) (fs : List Nat) (par : Nat → Nat) (t : Page)
    (h : Registry c0 fs par t) :
    toggleButtons t = (List.range fs.length).map (fun k => c0 + k) := by
  obtain ⟨hc, hl, -⟩ := h
  unfold toggleButtons
  have e1 : (List.range t.count).filter (fun i => !(t.nodes i).clickListeners.isEmpty) =
      (List.range t.count).filter (fun i => decide (c0 ≤ i ∧ i < c0 + fs.length)) := by
    apply List.filter_congr
    intro i hi
    rw [List.mem_range] at hi
    rw [hl i hi]
    by_cases hin : c0 ≤ i ∧ i < c0 + fs.length
    · have hk : i - c0 < fs.length := by omega
      have := listenersAt_button c0 fs (i - c0) hk
      have e : c0 + (i - c0) = i := by omega
      rw [e] at this
      simp [this, hin]
    · rw [listenersAt_other c0 fs i (by intro k hk e; apply hin; omega)]
      simp [hin]
  rw [e1]
  apply List.eq_of_perm_of_sorted (r := (· < ·))
  · apply List.perm_of_nodup_nodup_toFinset_eq
    · exact List.Nodup.filter _ (List.nodup_range _)
    · apply List.Nodup.map
      · intro a b hab; simpa using hab
      · exact List.nodup_range _
    · ext i
      simp only [List.mem_toFinset, List.mem_filter, List.mem_range, decide_eq_true_eq,
        List.mem_map]
      constructor
      · rintro ⟨-, h1, h2⟩
        exact ⟨i - c0, by omega, by omega⟩
      · rintro ⟨k, hk, rfl⟩
        exact ⟨by omega, by omega, by omega⟩
  · apply List.Sorted.filter
    exact List.sorted_lt_range _
  · rw [List.Sorted, List.pairwise_map]
    have := List.sorted_lt_range fs.length
    exact List.Pairwise.imp (by intro a b hab; omega) this

theorem element_eq (e e' : Element) (ha : e'.attrs = e.attrs)
    (hp : e'.parentNode = e.parentNode) (hc : e'.children = e.children) : e' = e := by
  cases e
  cases e'
  simp only [Element.attrs, Prod.mk.injEq] at ha
  simp only at hp hc
  obtain ⟨a1, a2, a3, a4, a5, a6⟩ := ha
  subst a1 a2 a3 a4 a5 a6 hp hc
  rfl

theorem clicksOn_replicate (b : Nat) (n : Nat) : ∀ (t : Page), b < t.count →
    clicksOn b t (List.replicate n (Event.click b)) = n := by
  induction n with
  | zero => intro t _; rfl
  | succ n ih =>
    intro t hb
    show (if reaches t b (Event.click b) then 1 else 0) +
      clicksOn b (step t (Event.click b)) (List.replicate n (Event.click b)) = n + 1
    rw [reaches_self t b hb, ih (step t (Event.click b))
      (by show b < (click t b).count; rw [click_count]; exact hb)]
    simp
    omega

/-! ## Facts about the example pages -/

theorem demoPage_fresh : Fresh demoPage :=
  ⟨rfl, by decide⟩

theorem demoPage_hosted : Hosted demoPage := by
  intro f hf
  have h2 : f = 2 := by
    have : querySelectorAll demoPage passwordSelector = [2] := by decide
    rw [this] at hf
    simpa using hf
  subst h2
  exact ⟨by decide, 1, by decide, by decide⟩

theorem demoPage_loaded : onDOMContentLoaded demoPage = some demoLoaded := rfl

theorem demoLoaded_toggle : IsToggleOf demoLoaded 4 2 :=
  ⟨by decide, by decide⟩

theorem demoPage_wellFormed : WellFormed demoPage := by
  intro i hi p hp
  have hi' : i < 4 := hi
  interval_cases i
  · cases hp
  · have : p = 0 := by injection hp with h; exact h.symm
    omega
  · have : p = 1 := by injection hp with h; exact h.symm
    omega
  · have : p = 1 := by injection hp with h; exact h.symm
    omega

theorem duoPage_fresh : Fresh duoPage :=
  ⟨rfl, by decide⟩

theorem duoPage_hosted : Hosted duoPage := by
  intro f hf
  have h2 : f = 2 ∨ f = 3 := by
    have : querySelectorAll duoPage passwordSelector = [2, 3] := by decide
    rw [this] at hf
    simpa using hf
  rcases h2 with rfl | rfl
  · exact ⟨by decide, 1, by decide, by decide⟩
  · exact ⟨by decide, 1, by decide, by decide⟩

theorem duoPage_loaded : onDOMContentLoaded duoPage = some duoLoaded := rfl

theorem duoPage_wellFormed : WellFormed duoPage := by
  intro i hi p hp
  have hi' : i < 4 := hi
  interval_cases i
  · cases hp
  · have : p = 0 := by injection hp with h; exact h.symm
    omega
  · have : p = 1 := by injection hp with h; exact h.symm
    omega
  · have : p = 1 := by injection hp with h; exact h.symm
    omega

/-! ## Claims -/

/-- C1: for a field `f` enhanced at load time, with toggle button `b`: after `n`
clicks on `b` the field is masked (type `password`, icon `bi bi-eye`) when `n` is
even and revealed (type `text`, icon `bi bi-eye-slash`) when `n` is odd.  The same
holds when the clicks are interleaved with any other events, `n` being the
number of clicks that reached `b`; and two more clicks on `b` restore type and
icon. -/
theorem toggle_alternates (s s1 : Page) (hF : Fresh s) (H : Hosted s) (hW : WellFormed s)
    (h1 : onDOMContentLoaded s = some s1) (b f : Nat) (hb : IsToggleOf s1 b f) :
    (∀ n,
      (n % 2 = 0 → Masked (run s1 (List.replicate n (Event.click b))) f b) ∧
      (n % 2 = 1 → Revealed (run s1 (List.replicate n (Event.click b))) f b)) ∧
    (∀ evs,
      (clicksOn b s1 evs % 2 = 0 → Masked (run s1 evs) f b) ∧
      (clicksOn b s1 evs % 2 = 1 → Revealed (run s1 evs) f b)) ∧
    (∀ evs,
      ((run s1 (evs ++ [Event.click b, Event.click b])).nodes f).type =
        ((run s1 evs).nodes f).type ∧
      ((run s1 (evs ++ [Event.click b, Event.click b])).nodes b).innerHTML =
        ((run s1 evs).nodes b).innerHTML) := by
  have hR0 := load_registry s s1 hF H h1
  obtain ⟨k, hk, rfl, rfl⟩ := toggle_index _ _ _ s1 hR0 b f hb
  have hbr : ∀ evs, s.count + k < (run s1 evs).count := by
    intro evs
    have := (reach_registry s s1 hF H h1 evs).1
    omega
  have key : ∀ evs,
      (clicksOn (s.count + k) s1 evs % 2 = 0 →
        Masked (run s1 evs) (querySelectorAll s passwordSelector)[k] (s.count + k)) ∧
      (clicksOn (s.count + k) s1 evs % 2 = 1 →
        Revealed (run s1 evs) (querySelectorAll s passwordSelector)[k] (s.count + k)) := by
    intro evs
    have h3 := reach_modes s s1 hF H hW h1 evs k hk
    simp only at h3
    constructor
    · intro hpar; rw [if_pos hpar] at h3; exact h3
    · intro hpar
      rw [if_neg (by omega)] at h3; exact h3
  refine ⟨?_, key, ?_⟩
  · intro n
    have hcount := clicksOn_replicate (s.count + k) n s1 (by have := hbr []; exact this)
    have := key (List.replicate n (Event.click (s.count + k)))
    rw [hcount] at this
    exact this
  · intro evs
    have hc2 : clicksOn (s.count + k) s1
        (evs ++ [Event.click (s.count + k), Event.click (s.count + k)]) =
        clicksOn (s.count + k) s1 evs + 2 := by
      have e : evs ++ [Event.click (s.count + k), Event.click (s.count + k)] =
          (evs ++ [Event.click (s.count + k)]) ++ [Event.click (s.count + k)] := by simp
      rw [e, clicksOn_append, clicksOn_append, reaches_self _ _ (hbr evs),
        reaches_self _ _ (hbr _)]
      simp
    have hA := key evs
    have hB := key (evs ++ [Event.click (s.count + k), Event.click (s.count + k)])
    rw [hc2] at hB
    rcases Nat.mod_two_eq_zero_or_one (clicksOn (s.count + k) s1 evs) with hpar | hpar
    · have m1 := hA.1 hpar
      have m2 := hB.1 (by omega)
      exact ⟨by rw [m1.1, m2.1], by rw [m1.2, m2.2]⟩
    · have m1 := hA.2 hpar
      have m2 := hB.2 (by omega)
      exact ⟨by rw [m1.1, m2.1], by rw [m1.2, m2.2]⟩

/-- On the example page, one click on button 4 reveals field 2. -/
theorem toggle_alternates_witness :
    Fresh demoPage ∧ Hosted demoPage ∧ WellFormed demoPage ∧
      onDOMContentLoaded demoPage = some demoLoaded ∧
      IsToggleOf demoLoaded 4 2 ∧ Revealed (run demoLoaded [Event.click 4]) 2 4 :=
  ⟨demoPage_fresh, demoPage_hosted, demoPage_wellFormed, demoPage_loaded, demoLoaded_toggle,
    ((toggle_alternates demoPage demoLoaded demoPage_fresh demoPage_hosted demoPage_wellFormed
      demoPage_loaded 4 2 demoLoaded_toggle).2.1 [Event.click 4]).2 (by decide)⟩

/-- C2: on a page whose `N` password fields each have a parent element, the
`DOMContentLoaded` callback succeeds and creates exactly `N` elements, all of
them toggle buttons; button number `k` carries the handler of field number `k`
and nothing else does, distinct fields having distinct buttons; each button has
the parent of its own field as parent and is among that parent's children. -/
theorem one_toggle_per_field (s : Page) (hF : Fresh s) (H : Hosted s) :
    ∃ s1, onDOMContentLoaded s = some s1 ∧
      s1.count = s.count + (querySelectorAll s passwordSelector).length ∧
      (toggleButtons s1).length = (querySelectorAll s passwordSelector).length ∧
      (querySelectorAll s passwordSelector).Nodup ∧
      (∀ b f, IsToggleOf s1 b f ↔
        ∃ k, ∃ hk : k < (querySelectorAll s passwordSelector).length,
          (querySelectorAll s passwordSelector)[k] = f ∧ b = s.count + k) ∧
      (∀ k (hk : k < (querySelectorAll s passwordSelector).length),
        (s1.nodes (s.count + k)).tagName = "button" ∧
        (s1.nodes (s.count + k)).clickListeners =
          [{ field := (querySelectorAll s passwordSelector)[k], toggleBtn := s.count + k }] ∧
        ∃ p, (s.nodes (querySelectorAll s passwordSelector)[k]).parentElement = some p ∧
          (s1.nodes (querySelectorAll s passwordSelector)[k]).parentElement = some p ∧
          (s1.nodes (s.count + k)).parentElement = some p ∧
          s.count + k ∈ (s1.nodes p).children) := by
  obtain ⟨s1, h1, hc, -, -, -, hlow, hbtn⟩ := load_spec s H
  have h0 := load_registry s s1 hF H h1
  refine ⟨s1, h1, hc, ?_, query_nodup s _, ?_, ?_⟩
  · rw [toggleButtons_eq _ _ _ _ h0]; simp
  · intro b f
    constructor
    · exact toggle_index _ _ _ s1 h0 b f
    · rintro ⟨k, hk, rfl, rfl⟩
      exact index_toggle _ _ _ s1 h0 k hk
  · intro k hk
    obtain ⟨p, hp, hnode⟩ := hbtn k hk
    have hflt := fields_lt s _ (List.getElem_mem hk)
    obtain ⟨-, q, hq, hq'⟩ := H _ (List.getElem_mem hk)
    have hpq : p = q := by rw [hp] at hq'; exact Option.some.inj hq'
    subst hpq
    refine ⟨by rw [hnode]; rfl, by rw [hnode]; rfl, p, hp, ?_, by rw [hnode]; rfl, ?_⟩
    · rw [hlow _ hflt]; exact hp
    · rw [hlow p hq]
      exact List.mem_append_right _ (mem_buttonsFor s p _ s.count k hk hp)

/-- On the two-field page, whose fields share one parent, two buttons are
created. -/
theorem one_toggle_per_field_witness :
    Fresh duoPage ∧ Hosted duoPage ∧
      ∃ s1, onDOMContentLoaded duoPage = some s1 ∧ s1.count = 6 := by
  obtain ⟨s1, h1, hc, -⟩ := one_toggle_per_field duoPage duoPage_fresh duoPage_hosted
  exact ⟨duoPage_fresh, duoPage_hosted, s1, h1, by rw [hc]; decide⟩

/-- C3: the callback schedules exactly one timer, with delay 5000.  Until it
fires the timer stays pending and `close` is not called; it does not fire before
its delay has elapsed.  When it fires, `close` is called exactly once on each
element matching `.alert` at that moment and on nothing else, the timer is gone,
and a new query for `.alert` returns no element (in a well-formed page no
element of class `alert` is linked to the document any more, however far one
follows its ancestors); after that `close` is never called again. -/
theorem alerts_dismissed_once (s s1 : Page) (hT : s.timers = [])
    (h1 : onDOMContentLoaded s = some s1) :
    s1.timers = [{ delay := 5000, due := s.now + 5000 }] ∧
    ∀ evs1 t, Event.timeout ∉ evs1 → t = run s1 evs1 →
      t.timers = s1.timers ∧ t.closed = s.closed ∧
      (t.now < s.now + 5000 → step t Event.timeout = t) ∧
      (s.now + 5000 ≤ t.now →
        (step t Event.timeout).timers = [] ∧
        (step t Event.timeout).closed = t.closed ++ querySelectorAll t alertSelector ∧
        (querySelectorAll t alertSelector).Nodup ∧
        querySelectorAll (step t Event.timeout) alertSelector = [] ∧
        (WellFormed s → Hosted s → ∀ i, i < (step t Event.timeout).count →
          "alert" ∈ ((step t Event.timeout).nodes i).classList →
          ∀ fuel, climb (step t Event.timeout).nodes fuel i = false) ∧
        ∀ evs2, (run (step t Event.timeout) evs2).closed = (step t Event.timeout).closed) := by
  obtain ⟨ht1, hc1, hn1⟩ := load_log s s1 h1
  rw [hT, List.nil_append] at ht1
  refine ⟨ht1, ?_⟩
  intro evs1 t hno ht
  subst ht
  obtain ⟨a1, a2, a3⟩ := run_log evs1 s1 hno
  have htm : (run s1 evs1).timers = [{ delay := 5000, due := s.now + 5000 }] := by
    rw [a1, ht1]
  refine ⟨a1, by rw [a2, hc1], ?_, ?_⟩
  · intro hearly
    exact fireTimer_early _ _ htm hearly
  · intro hdue
    obtain ⟨b1, b2, b3⟩ := fireTimer_due (run s1 evs1) _ htm hdue
    refine ⟨b1, b2, query_nodup _ _, b3, ?_, ?_⟩
    · intro hW H i hi hcls fuel
      have hWf : WellFormed (step (run s1 evs1) Event.timeout) :=
        step_wellFormed _ _ (run_wellFormed evs1 s1 (load_wellFormed s s1 hW H h1))
      apply not_connected_any_fuel _ hWf i hi
      by_contra hconn
      have hconn' : isConnected (step (run s1 evs1) Event.timeout) i = true := by
        simpa using hconn
      have hmem : i ∈ querySelectorAll (step (run s1 evs1) Event.timeout) alertSelector := by
        rw [mem_query]
        exact ⟨hi, (selects_alert _).mpr hcls, hconn'⟩
      have hq : querySelectorAll (step (run s1 evs1) Event.timeout) alertSelector = [] := b3
      rw [hq] at hmem
      cases hmem
    · intro evs2
      exact (run_idle evs2 _ b1).2

/-- On the example page, the alert (element 3) is closed when the timer fires
after 5000 time units. -/
theorem alerts_dismissed_once_witness :
    demoPage.timers = [] ∧ onDOMContentLoaded demoPage = some demoLoaded ∧
      (step (run demoLoaded [Event.advance 5000]) Event.timeout).closed = [3] := by
  have h := ((alerts_dismissed_once demoPage demoLoaded rfl demoPage_loaded).2
    [Event.advance 5000] _ (by decide) rfl).2.2.2 (by decide)
  refine ⟨rfl, demoPage_loaded, ?_⟩
  rw [h.2.1]
  decide

/-- C4: in every state reached after loading, a click on the toggle button `b`
of field `f` changes nothing but the type of `f` and the content of `b`: the
counters, the timers and the log are unchanged; `f` differs at most in its type;
`b` differs at most in its content (its icon, and it has no child left); an
element that was inside `b` differs only in having no parent any more; every
other element is unchanged.  In particular every other enhanced field `g` and
its button `bg` are left unchanged. -/
theorem click_touches_own_pair_only (s s1 : Page) (hF : Fresh s) (H : Hosted s)
    (hW : WellFormed s) (h1 : onDOMContentLoaded s = some s1) (evs : List Event) (b f : Nat)
    (hb : IsToggleOf (run s1 evs) b f) :
    (step (run s1 evs) (Event.click b)).count = (run s1 evs).count ∧
    (step (run s1 evs) (Event.click b)).now = (run s1 evs).now ∧
    (step (run s1 evs) (Event.click b)).timers = (run s1 evs).timers ∧
    (step (run s1 evs) (Event.click b)).closed = (run s1 evs).closed ∧
    (∀ i, i ≠ f → i ≠ b → i ∉ ((run s1 evs).nodes b).children →
      (step (run s1 evs) (Event.click b)).nodes i = (run s1 evs).nodes i) ∧
    (step (run s1 evs) (Event.click b)).nodes f =
      { (run s1 evs).nodes f with
        type := ((step (run s1 evs) (Event.click b)).nodes f).type } ∧
    (step (run s1 evs) (Event.click b)).nodes b =
      { (run s1 evs).nodes b with
        innerHTML := ((step (run s1 evs) (Event.click b)).nodes b).innerHTML
        children := [] } ∧
    (∀ c ∈ ((run s1 evs).nodes b).children,
      (step (run s1 evs) (Event.click b)).nodes c =
        { (run s1 evs).nodes c with parentNode := ParentRef.detached }) ∧
    (∀ bg g, IsToggleOf (run s1 evs) bg g → g ≠ f →
      (step (run s1 evs) (Event.click b)).nodes g = (run s1 evs).nodes g ∧
      (step (run s1 evs) (Event.click b)).nodes bg = (run s1 evs).nodes bg) := by
  have hR := reach_registry s s1 hF H h1 evs
  have hWt := reach_wellFormed s s1 hW H h1 evs
  obtain ⟨k, hk, hfk, hbk⟩ := toggle_index _ _ _ _ hR b f hb
  have hflt : f < s.count := by rw [← hfk]; exact fields_lt s _ (List.getElem_mem _)
  have hstep : step (run s1 evs) (Event.click b) =
      toggleClick { field := f, toggleBtn := b } (run s1 evs) := by
    show click (run s1 evs) b = _
    have := click_eq_toggle _ _ _ (parentsAt_lt s H) (run s1 evs) hWt hR k hk b
      (by rw [hbk]; exact reaches_self _ _ (by rw [← hbk]; exact hb.1))
    rw [this, hfk, hbk]
  rw [hstep]
  have hfb : f ≠ b := by omega
  have hkids : ∀ c ∈ ((run s1 evs).nodes b).children,
      s.count + (querySelectorAll s passwordSelector).length ≤ c ∧
      ((run s1 evs).nodes c).parentNode = ParentRef.element b := by
    intro c hc
    rw [hbk] at hc ⊢
    obtain ⟨q1, -, q3⟩ := (hR.2.2 k hk).2.2.2 c hc
    exact ⟨q1, q3⟩
  have hH : ∀ c ∈ ((run s1 evs).nodes b).children,
      ((run s1 evs).nodes c).parentNode = ParentRef.element b ∨
      ((run s1 evs).nodes c).parentNode = ParentRef.detached :=
    fun c hc => Or.inl (hkids c hc).2
  obtain ⟨f1, f2, f3, f4⟩ := toggleClick_frame { field := f, toggleBtn := b } (run s1 evs)
  have hother : ∀ i, i ≠ f → i ≠ b → i ∉ ((run s1 evs).nodes b).children →
      (toggleClick { field := f, toggleBtn := b } (run s1 evs)).nodes i =
        (run s1 evs).nodes i := by
    intro i hif hib hic
    obtain ⟨a1, a2, a3, a4, a5, a6⟩ :=
      toggleClick_attrs { field := f, toggleBtn := b } (run s1 evs) i
    apply element_eq
    · unfold Element.attrs
      rw [a1, a2, a3, a4, a5, a6]
      simp [hif, hib]
    · rw [toggleClick_parentNode]
      show (if i ∈ ((run s1 evs).nodes b).children then ParentRef.detached
        else ((run s1 evs).nodes i).parentNode) = _
      rw [if_neg hic]
    · exact toggleClick_children_other _ _ i hH hib
  have hfkid : f ∉ ((run s1 evs).nodes b).children := by
    intro hc; have := (hkids f hc).1; omega
  have hbkid : b ∉ ((run s1 evs).nodes b).children := by
    intro hc; have := (hkids b hc).1; omega
  refine ⟨f1, f2, f3, f4, hother, ?_, ?_, ?_, ?_⟩
  · obtain ⟨a1, a2, a3, a4, a5, a6⟩ :=
      toggleClick_attrs { field := f, toggleBtn := b } (run s1 evs) f
    apply element_eq
    · unfold Element.attrs
      simp only
      rw [a1, a2, a3, a4, a6]
      simp [hfb]
    · rw [toggleClick_parentNode]
      show (if f ∈ ((run s1 evs).nodes b).children then ParentRef.detached
        else ((run s1 evs).nodes f).parentNode) = _
      rw [if_neg hfkid]
    · exact toggleClick_children_other _ _ f hH hfb
  · obtain ⟨a1, a2, a3, a4, a5, a6⟩ :=
      toggleClick_attrs { field := f, toggleBtn := b } (run s1 evs) b
    apply element_eq
    · unfold Element.attrs
      simp only
      rw [a1, a2, a3, a4, a5]
      simp [Ne.symm hfb]
    · rw [toggleClick_parentNode]
      show (if b ∈ ((run s1 evs).nodes b).children then ParentRef.detached
        else ((run s1 evs).nodes b).parentNode) = _
      rw [if_neg hbkid]
    · exact toggleClick_children_self { field := f, toggleBtn := b } (run s1 evs)
  · intro c hc
    have hcf : c ≠ f := by have := (hkids c hc).1; omega
    have hcb : c ≠ b := by have := (hkids c hc).1; omega
    obtain ⟨a1, a2, a3, a4, a5, a6⟩ :=
      toggleClick_attrs { field := f, toggleBtn := b } (run s1 evs) c
    apply element_eq
    · unfold Element.attrs
      simp only
      rw [a1, a2, a3, a4, a5, a6]
      simp [hcf, hcb]
    · rw [toggleClick_parentNode]
      show (if c ∈ ((run s1 evs).nodes b).children then ParentRef.detached
        else ((run s1 evs).nodes c).parentNode) = _
      rw [if_pos hc]
    · exact toggleClick_children_other _ _ c hH hcb
  · intro bg g hg hgf
    obtain ⟨j, hj, hgj, hbj⟩ := toggle_index _ _ _ _ hR bg g hg
    have hglt : g < s.count := by rw [← hgj]; exact fields_lt s _ (List.getElem_mem _)
    have hjk : j ≠ k := by
      intro e
      subst e
      exact hgf (by rw [← hgj, hfk])
    constructor
    · apply hother g hgf (by omega)
      intro hc; have := (hkids g hc).1; omega
    · apply hother bg (by omega) (by omega)
      intro hc; have := (hkids bg hc).1; omega

/-- On the two-field page, a click on button 4 (the toggle of field 2) leaves
field 3 and its button 5 as they were. -/
theorem click_touches_own_pair_only_witness :
    Fresh duoPage ∧ Hosted duoPage ∧ WellFormed duoPage ∧
      onDOMContentLoaded duoPage = some duoLoaded ∧
      IsToggleOf (run duoLoaded []) 4 2 ∧ IsToggleOf (run duoLoaded []) 5 3 ∧
      (step (run duoLoaded []) (Event.click 4)).nodes 3 = (run duoLoaded []).nodes 3 ∧
      (step (run duoLoaded []) (Event.click 4)).nodes 5 = (run duoLoaded []).nodes 5 :=
  ⟨duoPage_fresh, duoPage_hosted, duoPage_wellFormed, duoPage_loaded, ⟨by decide, by decide⟩,
    ⟨by decide, by decide⟩,
    (click_touches_own_pair_only duoPage duoLoaded duoPage_fresh duoPage_hosted
      duoPage_wellFormed duoPage_loaded [] 4 2 ⟨by decide, by decide⟩).2.2.2.2.2.2.2.2 5 3
      ⟨by decide, by decide⟩ (by decide)⟩

/-- C5: mode and icon move in lockstep.  For a field `f` enhanced at load time
with toggle button `b`: right after loading the field is masked and its type is
the one it had before loading; after every sequence of events the type is
`password` or `text`, the icon is `bi bi-eye` exactly when the type is
`password` and `bi bi-eye-slash` exactly when it is `text`; an event that is not
a click reaching `b` (a click on `b` or on an element inside `b`) leaves the type
of `f` unchanged, and a click reaching `b` changes it. -/
theorem mode_icon_lockstep (s s1 : Page) (hF : Fresh s) (H : Hosted s) (hW : WellFormed s)
    (h1 : onDOMContentLoaded s = some s1) (b f : Nat) (hb : IsToggleOf s1 b f) :
    (Masked s1 f b ∧ (s1.nodes f).type = (s.nodes f).type) ∧
    (∀ evs,
      (((run s1 evs).nodes f).type = "password" ∨ ((run s1 evs).nodes f).type = "text") ∧
      (((run s1 evs).nodes b).innerHTML = eyeIcon ↔
        ((run s1 evs).nodes f).type = "password") ∧
      (((run s1 evs).nodes b).innerHTML = eyeSlashIcon ↔
        ((run s1 evs).nodes f).type = "text")) ∧
    (∀ evs e, reaches (run s1 evs) b e = false →
      ((step (run s1 evs) e).nodes f).type = ((run s1 evs).nodes f).type) ∧
    (∀ evs e, reaches (run s1 evs) b e = true →
      ((step (run s1 evs) e).nodes f).type ≠ ((run s1 evs).nodes f).type) := by
  have hR0 := load_registry s s1 hF H h1
  obtain ⟨k, hk, rfl, rfl⟩ := toggle_index _ _ _ s1 hR0 b f hb
  have hne : eyeIcon ≠ eyeSlashIcon := by decide
  have hne' : ("password" : String) ≠ "text" := by decide
  have hm : ∀ evs, if clicksOn (s.count + k) s1 evs % 2 = 0
      then Masked (run s1 evs) (querySelectorAll s passwordSelector)[k] (s.count + k)
      else Revealed (run s1 evs) (querySelectorAll s passwordSelector)[k] (s.count + k) :=
    fun evs => reach_modes s s1 hF H hW h1 evs k hk
  refine ⟨⟨?_, ?_⟩, ?_, ?_, ?_⟩
  · have := hm []
    have hz : clicksOn (s.count + k) s1 [] % 2 = 0 := rfl
    rw [if_pos hz] at this
    exact this
  · obtain ⟨s1', h1', -, -, -, -, hlow, -⟩ := load_spec s H
    rw [h1] at h1'
    cases Option.some.inj h1'
    rw [hlow _ (fields_lt s _ (List.getElem_mem _))]
  · intro evs
    have h3 := hm evs
    split_ifs at h3
    · obtain ⟨m1, m2⟩ := h3
      rw [m1, m2]
      simp [hne, hne']
    · obtain ⟨m1, m2⟩ := h3
      rw [m1, m2]
      simp [hne.symm, hne'.symm]
  · intro evs e he
    have hA := hm evs
    have hB := hm (evs ++ [e])
    rw [run_append, clicksOn_append, he] at hB
    simp only [Bool.false_eq_true, if_false, Nat.add_zero] at hB
    split_ifs at hA hB
    · rw [hA.1, hB.1]
    · rw [hA.1, hB.1]
  · intro evs e he
    have hA := hm evs
    have hB := hm (evs ++ [e])
    rw [run_append, clicksOn_append, he] at hB
    simp only [if_true] at hB
    by_cases hpar : clicksOn (s.count + k) s1 evs % 2 = 0
    · rw [if_pos hpar] at hA
      rw [if_neg (by omega)] at hB
      rw [hA.1, hB.1]
      exact hne'.symm
    · rw [if_neg hpar] at hA
      rw [if_pos (by omega)] at hB
      rw [hA.1, hB.1]
      exact hne'

/-- On the example page, field 2 is masked after loading, and a click on an
element inserted inside button 4 (element 5) reveals it. -/
theorem mode_icon_lockstep_witness :
    Fresh demoPage ∧ Hosted demoPage ∧ WellFormed demoPage ∧
      onDOMContentLoaded demoPage = some demoLoaded ∧
      IsToggleOf demoLoaded 4 2 ∧ Masked demoLoaded 2 4 ∧
      ((step (run demoLoaded [Event.insert "span" "" [] 4]) (Event.click 5)).nodes 2).type ≠
        ((run demoLoaded [Event.insert "span" "" [] 4]).nodes 2).type :=
  ⟨demoPage_fresh, demoPage_hosted, demoPage_wellFormed, demoPage_loaded, demoLoaded_toggle,
    (mode_icon_lockstep demoPage demoLoaded demoPage_fresh demoPage_hosted demoPage_wellFormed
      demoPage_loaded 4 2 demoLoaded_toggle).1.1,
    (mode_icon_lockstep demoPage demoLoaded demoPage_fresh demoPage_hosted demoPage_wellFormed
      demoPage_loaded 4 2 demoLoaded_toggle).2.2.2 [Event.insert "span" "" [] 4]
      (Event.click 5) (by decide)⟩

/-- C6, as stated, fails: on the example page an alert inserted after the
callback has run and before the delay has elapsed (element 5) is closed when the
timer fires. -/
theorem early_inserted_alert_is_closed :
    ¬ ∀ (s s1 : Page) (evs1 evs2 : List Event) (tag ty : String) (cls : List String)
      (parent : Nat), Fresh s → s.closed = [] → onDOMContentLoaded s = some s1 →
      "alert" ∈ cls →
      (run s1 evs1).count ∉
        (run s1 (evs1 ++ Event.insert tag ty cls parent :: evs2)).closed := by
  intro h
  have h' := h demoPage demoLoaded [] [Event.advance 5000, Event.timeout] "div" "" ["alert"] 1
    demoPage_fresh rfl demoPage_loaded (by decide)
  revert h'
  decide

/-- C6, amended: an alert inserted after the timer callback has run is never
closed.  Once the timer has fired, whatever happens next, the log of `close`
calls stays as the timer callback left it, and an element inserted afterwards,
of class `alert` or not, is not in it. -/
theorem no_close_after_timer (s s1 : Page) (hT : s.timers = []) (hC : s.closed = [])
    (h1 : onDOMContentLoaded s = some s1) :
    ∀ (evs1 evs2 evs3 : List Event) (tag ty : String) (cls : List String) (parent : Nat)
      (tf : Page), Event.timeout ∉ evs1 → s.now + 5000 ≤ (run s1 evs1).now →
      tf = step (run s1 evs1) Event.timeout →
      (parent < (run tf evs2).count → "alert" ∈ cls →
        alertSelector.selects
          ((step (run tf evs2) (Event.insert tag ty cls parent)).nodes (run tf evs2).count) =
          true) ∧
      (run tf (evs2 ++ Event.insert tag ty cls parent :: evs3)).closed = tf.closed ∧
      (run tf evs2).count ∉
        (run tf (evs2 ++ Event.insert tag ty cls parent :: evs3)).closed := by
  obtain ⟨ht1, hc1, hn1⟩ := load_log s s1 h1
  rw [hT, List.nil_append] at ht1
  intro evs1 evs2 evs3 tag ty cls parent tf hno1 hdue htf
  subst htf
  obtain ⟨a1, a2, -⟩ := run_log evs1 s1 hno1
  have htm : (run s1 evs1).timers = [{ delay := 5000, due := s.now + 5000 }] := by
    rw [a1, ht1]
  obtain ⟨b1, b2, -⟩ := fireTimer_due (run s1 evs1) _ htm hdue
  have b1' : (step (run s1 evs1) Event.timeout).timers = [] := b1
  have b2' : (step (run s1 evs1) Event.timeout).closed =
      (run s1 evs1).closed ++ querySelectorAll (run s1 evs1) alertSelector := b2
  have hidle := (run_idle (evs2 ++ Event.insert tag ty cls parent :: evs3) _ b1').2
  refine ⟨?_, hidle, ?_⟩
  · intro hp hcls
    obtain ⟨-, -, -, -, hn⟩ :=
      insertElement_spec (run (step (run s1 evs1) Event.timeout) evs2) tag ty cls parent hp
    show alertSelector.selects
      ((insertElement (run (step (run s1 evs1) Event.timeout) evs2) tag ty cls parent).nodes
        _) = true
    rw [hn, if_pos rfl, selects_alert]
    exact hcls
  · rw [hidle, b2', a2, hc1, hC, List.nil_append]
    intro hmem
    have hlt := ((mem_query _ _ _).mp hmem).1
    have h1 := run_count_le evs2 (step (run s1 evs1) Event.timeout)
    have h2 : (step (run s1 evs1) Event.timeout).count = (run s1 evs1).count :=
      (fireTimer_frame _).1
    omega

/-- On the example page, an alert inserted once the timer has fired (element 5)
is not closed, even when the runtime serves the timer queue again. -/
theorem no_close_after_timer_witness :
    demoPage.timers = [] ∧ demoPage.closed = [] ∧
      onDOMContentLoaded demoPage = some demoLoaded ∧
      (run (step (run demoLoaded [Event.advance 5000]) Event.timeout) []).count ∉
        (run (step (run demoLoaded [Event.advance 5000]) Event.timeout)
          ([] ++ Event.insert "div" "" ["alert"] 1 ::
            [Event.advance 5000, Event.timeout])).closed :=
  ⟨rfl, rfl, demoPage_loaded,
    (no_close_after_timer demoPage demoLoaded rfl rfl demoPage_loaded [Event.advance 5000] []
      [Event.advance 5000, Event.timeout] "div" "" ["alert"] 1 _ (by decide) (by decide)
      rfl).2.2⟩

/-- C7: the toggles are fixed at load time.  After any sequence of events, the
pairs (button, field) are those registered by the `DOMContentLoaded` callback,
every field owning a toggle was returned by the single query made at load time,
the list of toggle buttons and its length are unchanged, every toggle button
still has the parent it was appended to and is still among its children, neither
a click nor the timer callback creates an element, and a password input inserted
later never owns a toggle, whatever happens afterwards. -/
theorem toggles_fixed_at_load (s s1 : Page) (hF : Fresh s) (H : Hosted s)
    (h1 : onDOMContentLoaded s = some s1) (evs : List Event) :
    (∀ b f, IsToggleOf (run s1 evs) b f ↔ IsToggleOf s1 b f) ∧
    (∀ b f, IsToggleOf (run s1 evs) b f →
      f ∈ querySelectorAll s passwordSelector ∧ b < s1.count) ∧
    toggleButtons (run s1 evs) = toggleButtons s1 ∧
    (toggleButtons (run s1 evs)).length = (querySelectorAll s passwordSelector).length ∧
    (∀ b f, IsToggleOf s1 b f → ∃ p, (s.nodes f).parentElement = some p ∧
      ((run s1 evs).nodes b).parentElement = some p ∧
      b ∈ ((run s1 evs).nodes p).children) ∧
    (∀ x, (step (run s1 evs) (Event.click x)).count = (run s1 evs).count) ∧
    (step (run s1 evs) Event.timeout).count = (run s1 evs).count ∧
    (∀ cls parent evs2, parent < (run s1 evs).count →
      passwordSelector.selects
        ((step (run s1 evs) (Event.insert "input" "password" cls parent)).nodes
          (run s1 evs).count) = true ∧
      ∀ b, ¬ IsToggleOf
        (run s1 (evs ++ Event.insert "input" "password" cls parent :: evs2)) b
        (run s1 evs).count) := by
  have h0 := load_registry s s1 hF H h1
  have hinv := reach_registry s s1 hF H h1 evs
  obtain ⟨s1', h1', hc1, -, -, -, hlow, hbtn⟩ := load_spec s H
  rw [h1] at h1'
  cases Option.some.inj h1'
  have hown : ∀ (evs' : List Event) b f, IsToggleOf (run s1 evs') b f →
      f ∈ querySelectorAll s passwordSelector ∧ b < s1.count := by
    intro evs' b f hb
    obtain ⟨k, hk, hfk, hbk⟩ :=
      toggle_index _ _ _ _ (reach_registry s s1 hF H h1 evs') b f hb
    exact ⟨by rw [← hfk]; exact List.getElem_mem _, by omega⟩
  refine ⟨?_, hown evs, ?_, ?_, ?_, ?_, ?_, ?_⟩
  · intro b f
    constructor
    · intro hb
      obtain ⟨k, hk, rfl, rfl⟩ := toggle_index _ _ _ _ hinv b f hb
      exact index_toggle _ _ _ s1 h0 k hk
    · intro hb
      obtain ⟨k, hk, rfl, rfl⟩ := toggle_index _ _ _ _ h0 b f hb
      exact index_toggle _ _ _ _ hinv k hk
  · rw [toggleButtons_eq _ _ _ _ hinv, toggleButtons_eq _ _ _ _ h0]
  · rw [toggleButtons_eq _ _ _ _ hinv]
    simp
  · intro b f hb
    obtain ⟨k, hk, rfl, rfl⟩ := toggle_index _ _ _ _ h0 b f hb
    obtain ⟨p, hp, -⟩ := hbtn k hk
    obtain ⟨r1, r2, -, -⟩ := hinv.2.2 k hk
    rw [parentsAt_eq s _ k hk p hp] at r1 r2
    refine ⟨p, hp, ?_, r2⟩
    unfold Element.parentElement
    rw [r1]
  · intro x
    exact click_count _ x
  · exact (fireTimer_frame _).1
  · intro cls parent evs2 hp
    constructor
    · obtain ⟨-, -, -, -, hn⟩ :=
        insertElement_spec (run s1 evs) "input" "password" cls parent hp
      show passwordSelector.selects
        ((insertElement (run s1 evs) "input" "password" cls parent).nodes _) = true
      rw [hn, if_pos rfl, selects_password]
      exact ⟨rfl, rfl⟩
    · intro b hb
      have hf := (hown _ b _ hb).1
      have := fields_lt s _ hf
      have := hinv.1
      omega

/-- On the example page, the toggle of field 2 is still the only one after a
password input has been inserted and clicked. -/
theorem toggles_fixed_at_load_witness :
    Fresh demoPage ∧ Hosted demoPage ∧ onDOMContentLoaded demoPage = some demoLoaded ∧
      toggleButtons
        (run demoLoaded [Event.insert "input" "password" [] 1, Event.click 5]) =
        toggleButtons demoLoaded :=
  ⟨demoPage_fresh, demoPage_hosted, demoPage_loaded,
    (toggles_fixed_at_load demoPage demoLoaded demoPage_fresh demoPage_hosted demoPage_loaded
      [Event.insert "input" "password" [] 1, Event.click 5]).2.2.1⟩

/-- C8: absence of targets is a silent no-op.  On a page where no element of
class `alert` is in the document, the timer callback returns the page as it is
(so it calls `close` on nothing).  On a page where no password input is in the
document, the `DOMContentLoaded` callback succeeds and only registers the timer:
no element is created or changed.  On a page where every password field has a
parent element, the callback succeeds. -/
theorem absent_targets_are_noops (s : Page) :
    ((∀ i, i < s.count → "alert" ∈ (s.nodes i).classList → isConnected s i = false) →
      dismissAlerts s = s) ∧
    ((∀ i, i < s.count → (s.nodes i).tagName = "input" → (s.nodes i).type = "password" →
        isConnected s i = false) →
      onDOMContentLoaded s = some (setTimeout s 5000) ∧
      (setTimeout s 5000).nodes = s.nodes ∧ (setTimeout s 5000).count = s.count ∧
      (setTimeout s 5000).closed = s.closed) ∧
    (Hosted s → ∃ s1, onDOMContentLoaded s = some s1) := by
  refine ⟨?_, ?_, ?_⟩
  · intro h
    have hq : querySelectorAll s alertSelector = [] := by
      apply query_eq_nil
      intro i hi hsel
      exact h i hi ((selects_alert _).mp hsel)
    unfold dismissAlerts
    simp only [hq, List.foldl_nil]
  · intro h
    have hq : querySelectorAll (setTimeout s 5000) passwordSelector = [] := by
      apply query_eq_nil
      intro i hi hsel
      obtain ⟨h1, h2⟩ := (selects_password _).mp hsel
      exact h i hi h1 h2
    refine ⟨?_, rfl, rfl, rfl⟩
    unfold onDOMContentLoaded
    simp only [hq]
    rfl
  · intro H
    obtain ⟨s1, h1, -⟩ := load_spec s H
    exact ⟨s1, h1⟩

/-- On the two-field page there is no alert: the timer callback changes
nothing; on the example page cut down to its first two elements there is no
password input: the callback only registers the timer; on the example page the
callback succeeds. -/
theorem absent_targets_are_noops_witness :
    dismissAlerts duoPage = duoPage ∧
      onDOMContentLoaded { demoPage with count := 2 } =
        some (setTimeout { demoPage with count := 2 } 5000) ∧
      ∃ s1, onDOMContentLoaded demoPage = some s1 :=
  ⟨(absent_targets_are_noops duoPage).1 (by decide),
    ((absent_targets_are_noops { demoPage with count := 2 }).2.1 (by decide)).1,
    (absent_targets_are_noops demoPage).2.2 demoPage_hosted⟩

/-- C9, as stated, fails: a parent that is already positioned does not keep its
position.  On the example page the parent of the password field has position
`absolute` before the callback and `relative` after it. -/
theorem positioned_parent_is_overwritten :
    ¬ ∀ (s s1 : Page) (f p : Nat), Hosted s → onDOMContentLoaded s = some s1 →
      f ∈ querySelectorAll s passwordSelector → (s.nodes f).parentElement = some p →
      (s.nodes p).style.position = "absolute" →
      (s1.nodes p).style.position = (s.nodes p).style.position := by
  intro h
  have h' := h demoPage demoLoaded 2 1 demoPage_hosted demoPage_loaded (by decide) (by decide)
    (by decide)
  revert h'
  decide

/-- C9, amended: for every password field present at load time, the parent
element ends with position `relative`, whatever its position was; its children
are the former ones, in order, followed by the toggle buttons of the fields it
contains; nothing else of the parent is modified.  An element that is the
parent of no password field is not modified at all. -/
theorem parent_made_relative (s s1 : Page) (H : Hosted s)
    (h1 : onDOMContentLoaded s = some s1) :
    (∀ f p, f ∈ querySelectorAll s passwordSelector → (s.nodes f).parentElement = some p →
      s1.nodes p =
        { s.nodes p with
          style := { (s.nodes p).style with position := "relative" }
          children := (s.nodes p).children ++
            buttonsFor s p (querySelectorAll s passwordSelector) s.count } ∧
      buttonsFor s p (querySelectorAll s passwordSelector) s.count ≠ [] ∧
      ∀ b ∈ buttonsFor s p (querySelectorAll s passwordSelector) s.count,
        ∃ k, ∃ hk : k < (querySelectorAll s passwordSelector).length, b = s.count + k ∧
          (s.nodes (querySelectorAll s passwordSelector)[k]).parentElement = some p ∧
          (s1.nodes b).clickListeners =
            [{ field := (querySelectorAll s passwordSelector)[k], toggleBtn := b }]) ∧
    (∀ i, i < s.count →
      (∀ f ∈ querySelectorAll s passwordSelector, (s.nodes f).parentElement ≠ some i) →
      s1.nodes i = s.nodes i) := by
  obtain ⟨s1', h1', hc, -, -, -, hlow, hbtn⟩ := load_spec s H
  rw [h1] at h1'
  cases Option.some.inj h1'
  constructor
  · intro f p hf hp
    obtain ⟨-, q, hq, hq'⟩ := H f hf
    have hpq : p = q := by rw [hp] at hq'; exact Option.some.inj hq'
    subst hpq
    have hne : buttonsFor s p (querySelectorAll s passwordSelector) s.count ≠ [] :=
      (buttonsFor_ne_nil s p _ s.count).mpr ⟨f, hf, hp⟩
    refine ⟨?_, hne, ?_⟩
    · rw [hlow p hq, if_neg hne]
    · intro b hb
      obtain ⟨k, hk, rfl, hpk⟩ := buttonsFor_mem s p _ s.count b hb
      obtain ⟨p', -, hnode⟩ := hbtn k hk
      exact ⟨k, hk, rfl, hpk, by rw [hnode]; rfl⟩
  · intro i hi hno
    rw [hlow i hi, buttonsFor_eq_nil s i _ s.count hno]
    simp

/-- On the example page the parent of the password field, positioned
`absolute`, ends `relative` with the new button as last child. -/
theorem parent_made_relative_witness :
    Hosted demoPage ∧ onDOMContentLoaded demoPage = some demoLoaded ∧
      (demoLoaded.nodes 1).style.position = "relative" ∧
      (demoLoaded.nodes 1).children = [2, 3, 4] := by
  have h := ((parent_made_relative demoPage demoLoaded demoPage_hosted demoPage_loaded).1
    2 1 (by decide) (by decide)).1
  refine ⟨demoPage_hosted, demoPage_loaded, ?_, ?_⟩
  · rw [h]
  · rw [h]; decide

/-- C10: the click handler looks only at whether the type is `password`.  In any
state in which `b` carries the handler of field `f`, whatever the type of `f` and
the icon of `b`, when the handler runs: if the type is not `password`, the field
becomes masked (type `password`, icon `bi bi-eye`); if it is `password`, it
becomes revealed (type `text`, icon `bi bi-eye-slash`); so the pair is always one
of the two consistent pairs afterwards.  A click on `b` does exactly that when no
element around `b` carries a click handler. -/
theorem click_decides_on_type (t : Page) (b f : Nat) (hb : b < t.count)
    (hl : (t.nodes b).clickListeners = [{ field := f, toggleBtn := b }]) :
    (((t.nodes f).type ≠ "password" → Masked (dispatch t b) f b) ∧
      ((t.nodes f).type = "password" → Revealed (dispatch t b) f b) ∧
      (Masked (dispatch t b) f b ∨ Revealed (dispatch t b) f b)) ∧
    ((∀ i ∈ (eventPath t.nodes t.count b).tail, i < t.count →
        (t.nodes i).clickListeners = []) →
      ((t.nodes f).type ≠ "password" → Masked (step t (Event.click b)) f b) ∧
      ((t.nodes f).type = "password" → Revealed (step t (Event.click b)) f b) ∧
      (Masked (step t (Event.click b)) f b ∨ Revealed (step t (Event.click b)) f b)) := by
  have hd : dispatch t b = toggleClick { field := f, toggleBtn := b } t := by
    unfold dispatch
    rw [if_pos hb, hl]
    rfl
  have hm : (t.nodes f).type ≠ "password" →
      Masked (toggleClick { field := f, toggleBtn := b } t) f b := by
    intro h
    unfold Masked
    rw [(toggleClick_attrs _ t f).2.2.2.2.1, (toggleClick_attrs _ t b).2.2.2.2.2]
    simp [h]
  have hr : (t.nodes f).type = "password" →
      Revealed (toggleClick { field := f, toggleBtn := b } t) f b := by
    intro h
    unfold Revealed
    rw [(toggleClick_attrs _ t f).2.2.2.2.1, (toggleClick_attrs _ t b).2.2.2.2.2]
    simp [h]
  have hor : Masked (toggleClick { field := f, toggleBtn := b } t) f b ∨
      Revealed (toggleClick { field := f, toggleBtn := b } t) f b := by
    by_cases h : (t.nodes f).type = "password"
    · exact Or.inr (hr h)
    · exact Or.inl (hm h)
  constructor
  · rw [hd]
    exact ⟨hm, hr, hor⟩
  · intro hanc
    have hstep : step t (Event.click b) = toggleClick { field := f, toggleBtn := b } t := by
      show click t b = _
      unfold click
      rw [if_pos hb]
      obtain ⟨n, hn⟩ : ∃ n, t.count = n + 1 := ⟨t.count - 1, by omega⟩
      have hpath : eventPath t.nodes t.count b =
          b :: (eventPath t.nodes t.count b).tail := by
        rw [hn]; rfl
      rw [hpath, List.foldl_cons, hd]
      apply fold_dispatch_id
      intro i hi hlt
      rw [(toggleClick_attrs _ t i).2.2.2.1]
      exact hanc i hi (by rw [(toggleClick_frame _ t).1] at hlt; exact hlt)
    rw [hstep]
    exact ⟨hm, hr, hor⟩

/-- On the example page, with field 2 given the type `email` and button 4 any
icon, one click on button 4 makes the field masked. -/
theorem click_decides_on_type_witness :
    Masked (step ((demoLoaded.modify 2 (fun e => { e with type := "email" })).modify 4
      (fun e => { e with innerHTML := "?" })) (Event.click 4)) 2 4 :=
  ((click_decides_on_type ((demoLoaded.modify 2 (fun e => { e with type := "email" })).modify 4
    (fun e => { e with innerHTML := "?" })) 4 2 (by decide) (by decide)).2 (by decide)).1
    (by decide)

end PageEnhancer
